import Mathlib

/-!
Verification of the article-fingerprinter consensus pipeline.

This file is a shallow embedding, in Lean 4, of the core of the
article_fingerprinter Python package:

* article_fingerprinter/quirks.py      (QuirksProcessor: three-layer normalization)
* article_fingerprinter/supermajority.py (SupermajorityExtractor: sentence voting)
* article_fingerprinter/fingerprinter.py (ArticleFingerprinter: orchestration)

Python strings are modelled as List Char.  Python functions that can raise
exceptions are modelled as Option-valued functions (none = an exception
escapes).  External library calls that the pipeline treats as black boxes
(hashlib.sha256, difflib.SequenceMatcher.ratio, the HTML extractors and the
metadata parser) are passed in as parameters of the model, matching the
spec's "external collaborator" boundary.

Modelling notes for Python built-ins used by the code:
* str.split() with no argument splits on maximal runs of Unicode whitespace
  and drops empty fields; isPySpace below lists exactly the code points for
  which Python's str.isspace() is true (the split set).
* ' '.join(text.split()) therefore replaces every maximal whitespace run by
  one ASCII space and removes leading/trailing whitespace; collapse below
  implements exactly that transformation (squeeze normalizes every
  whitespace run, including each lone whitespace character, to one ASCII
  space; lstrip/rstrip remove the boundary run).
* str.strip() removes leading and trailing Unicode whitespace (pyStrip).
* Regex character classes are modelled at ASCII fidelity where the class is
  ASCII by construction ([.,!?;:], [A-Za-z], [A-Z], \d, the literal
  alternations); \w (Unicode word character) is modelled as ASCII
  alphanumeric or underscore, a documented restriction that no theorem in
  this file depends on.
-/

/-- The set of code points for which Python's str.isspace() is true,
hence the separator set of str.split() and of the regex class \s. -/
def isPySpace (c : Char) : Bool :=
  c.toNat ∈ [9, 10, 11, 12, 13, 28, 29, 30, 31, 32, 133, 160, 0x1680,
    0x2000, 0x2001, 0x2002, 0x2003, 0x2004, 0x2005, 0x2006, 0x2007, 0x2008,
    0x2009, 0x200A, 0x2028, 0x2029, 0x202F, 0x205F, 0x3000]

/-- The regex class [.,!?;:] used by the punctuation-spacing rules of
QuirksProcessor.base_quirks (quirks.py lines 39-40). -/
def isPunctCls (c : Char) : Bool :=
  c = '.' || c = ',' || c = '!' || c = '?' || c = ';' || c = ':'

/-- The regex class [A-Za-z] (quirks.py line 40). -/
def isAsciiAlpha (c : Char) : Bool :=
  (65 ≤ c.toNat && c.toNat ≤ 90) || (97 ≤ c.toNat && c.toNat ≤ 122)

/-- The regex class [A-Z] (quirks.py line 50). -/
def isAsciiUpper (c : Char) : Bool :=
  65 ≤ c.toNat && c.toNat ≤ 90

/-- Replace every maximal whitespace run by a single ASCII space, also
turning a lone non-ASCII whitespace character into ' '.  Together with
lstrip/rstrip this implements Python's ' '.join(text.split()). -/
def squeeze : List Char → List Char
  | [] => []
  | [c] => if isPySpace c then [' '] else [c]
  | a :: b :: rest =>
    if isPySpace a ∧ isPySpace b then squeeze (b :: rest)
    else (if isPySpace a then ' ' else a) :: squeeze (b :: rest)

/-- Drop leading Python whitespace. -/
def lstrip (s : List Char) : List Char := s.dropWhile fun c => isPySpace c

/-- Drop trailing Python whitespace. -/
def rstrip : List Char → List Char
  | [] => []
  | c :: cs =>
    if rstrip cs = [] then (if isPySpace c then [] else [c]) else c :: rstrip cs

/-- Python's ' '.join(text.split()): every maximal whitespace run becomes
one ASCII space and boundary whitespace is removed. -/
def collapse (s : List Char) : List Char := rstrip (lstrip (squeeze s))

/-- Python's str.strip(). -/
def pyStrip (s : List Char) : List Char := rstrip (lstrip s)

/-- re.sub(r'\s+(C)', r'\1', text) for a one-character-class C: delete every
maximal whitespace run that is immediately followed by a character of the
class q.  Equivalently (the form below): a whitespace character is deleted
exactly when the next non-whitespace character exists and is in q; all other
characters are kept.  Used with q = isPunctCls by base_quirks (quirks.py
line 39) and with q = (is '"') by the readability extractor quirk
(quirks.py line 75). -/
def nextNonSpaceIs (q : Char → Bool) (l : List Char) : Bool :=
  match l.dropWhile isPySpace with
  | d :: _ => q d
  | [] => false

def delSpaceBefore (q : Char → Bool) : List Char → List Char
  | [] => []
  | c :: cs =>
    if isPySpace c && nextNonSpaceIs q cs then delSpaceBefore q cs
    else c :: delSpaceBefore q cs

/-- re.sub inserting one space between an adjacent pair (p-char, q-char):
models re.sub(r'(P)(Q)', r'\1 \2', text) for one-character classes P, Q.
Used for r'([.,!?;:])([A-Za-z])' (quirks.py line 40) and r'\.([A-Z])'
(quirks.py line 50).  The re.sub scan resumes after each match; since no
q-character is a p-character in either use, that is the recursion below. -/
def insSpaceBetween (p q : Char → Bool) : List Char → List Char
  | [] => []
  | [c] => [c]
  | a :: b :: rest =>
    if p a && q b then a :: ' ' :: b :: insSpaceBetween p q rest
    else a :: insSpaceBetween p q (b :: rest)

/-- The character rewrites of base_quirks (quirks.py lines 43-47):
typographic double and single quotes to ASCII, em/en dash to hyphen. -/
def quoteDashMap (c : Char) : Char :=
  if c = '“' || c = '”' then '"'
  else if c = '‘' || c = '’' then '\x27'
  else if c = '—' || c = '–' then '-'
  else c

/-- text.replace('\xa0', ' ') (quirks.py line 36, first replace). -/
def nbspToSpace (c : Char) : Char := if c = '\xa0' then ' ' else c

/-- QuirksProcessor.base_quirks (quirks.py lines 17-52), layer 1 of the
normalizer.  Faithful step-by-step translation:
1. empty-string guard (Python: if not text: return "");
2. ' '.join(text.split())                      -> collapse;
3. .replace('\xa0', ' ') and removing U+200B  -> map nbspToSpace, filter;
4. re.sub(r'\s+([.,!?;:])', r'\1', ...)        -> delSpaceBefore isPunctCls;
5. re.sub(r'([.,!?;:])([A-Za-z])', r'\1 \2')   -> insSpaceBetween;
6. quote and dash replaces                     -> map quoteDashMap;
7. re.sub(r'\.([A-Z])', r'. \1', ...)          -> insSpaceBetween;
8. ' '.join(text.split()).strip()              -> collapse (strip of a
   collapsed string is the identity, and collapse includes the trim). -/
def base_quirks (s : List Char) : List Char :=
  if s = [] then []
  else
    let t1 := collapse s
    let t2 := (t1.map nbspToSpace).filter fun c => c ≠ '\u200b'
    let t3 := delSpaceBefore isPunctCls t2
    let t4 := insSpaceBetween isPunctCls isAsciiAlpha t3
    let t5 := t4.map quoteDashMap
    let t6 := insSpaceBetween (fun c => c = '.') isAsciiUpper t5
    collapse t6

example : base_quirks ("Hello world . This is a test .".data) =
    ("Hello world. This is a test.".data) := by decide

example : base_quirks ("He said “hello” and ‘goodbye’".data) =
    ("He said \"hello\" and \x27goodbye\x27".data) := by decide

example : base_quirks ("Test—em dash and–en dash".data) =
    ("Test-em dash and-en dash".data) := by decide

example : base_quirks ("Hello    world  \n\n  test".data) = ("Hello world test".data) := by
  decide

example : base_quirks ("Hello\xa0world".data) = ("Hello world".data) := by decide

example : base_quirks ("One.Two".data) = ("One. Two".data) := by decide

/-! ## Adjacent-pair invariants

The idempotence proof of base_quirks rests on invariants about adjacent
characters: no whitespace directly before a punctuation-class character, no
punctuation-class character directly before a letter, no two adjacent
whitespace characters.  RPair p q a b says the adjacent pair (a, b) is not a
(p, q) pair; noPair p q l says no adjacent pair of l is one. -/

abbrev RPair (p q : Char → Bool) (a b : Char) : Prop := ¬(p a = true ∧ q b = true)

abbrev noPair (p q : Char → Bool) (l : List Char) : Prop := List.Chain' (RPair p q) l

/-! ### Character-class facts -/

theorem space_coarse {c : Char} (h : isPySpace c = true) :
    c.toNat ≤ 32 ∨ 133 ≤ c.toNat := by
  simp only [isPySpace, List.mem_cons, List.not_mem_nil, or_false,
    decide_eq_true_eq] at h
  rcases h with h|h|h|h|h|h|h|h|h|h|h|h|h|h|h|h|h|h|h|h|h|h|h|h|h|h|h|h|h <;>
    omega

theorem punct_ascii {c : Char} (h : isPunctCls c = true) :
    33 ≤ c.toNat ∧ c.toNat ≤ 63 := by
  simp only [isPunctCls, Bool.or_eq_true, decide_eq_true_eq] at h
  rcases h with ((((h|h)|h)|h)|h)|h <;> subst h <;> decide

theorem space_not_punct {c : Char} (h : isPySpace c = true) :
    isPunctCls c = false := by
  rcases Bool.eq_false_or_eq_true (isPunctCls c) with ht | hf
  · exact absurd (space_coarse h) (by have := punct_ascii ht; omega)
  · exact hf

theorem alpha_not_space {c : Char} (h : isAsciiAlpha c = true) :
    isPySpace c = false := by
  rcases Bool.eq_false_or_eq_true (isPySpace c) with ht | hf
  · simp only [isAsciiAlpha, Bool.or_eq_true, Bool.and_eq_true,
      decide_eq_true_eq] at h
    exact absurd (space_coarse ht) (by omega)
  · exact hf

theorem alpha_not_punct {c : Char} (h : isAsciiAlpha c = true) :
    isPunctCls c = false := by
  rcases Bool.eq_false_or_eq_true (isPunctCls c) with ht | hf
  · simp only [isAsciiAlpha, Bool.or_eq_true, Bool.and_eq_true,
      decide_eq_true_eq] at h
    exact absurd (punct_ascii ht) (by omega)
  · exact hf

theorem upper_alpha {c : Char} (h : isAsciiUpper c = true) :
    isAsciiAlpha c = true := by
  simp only [isAsciiUpper, Bool.and_eq_true, decide_eq_true_eq] at h
  simp only [isAsciiAlpha, Bool.or_eq_true, Bool.and_eq_true, decide_eq_true_eq]
  omega

theorem space_not_alpha {c : Char} (h : isPySpace c = true) :
    isAsciiAlpha c = false := by
  rcases Bool.eq_false_or_eq_true (isAsciiAlpha c) with ht | hf
  · rw [alpha_not_space ht] at h; cases h
  · exact hf

/-! ### head?, membership and chain lemmas for the pipeline steps -/

theorem squeeze_head? (l : List Char) :
    (squeeze l).head? = l.head?.map fun c => if isPySpace c then ' ' else c := by
  induction l using squeeze.induct with
  | case1 => rfl
  | case2 c h => simp [squeeze, h]
  | case3 c h => simp [squeeze, h]
  | case4 a b rest h ih =>
    simp only [squeeze, if_pos h, ih]
    simp [h.1, h.2]
  | case5 a b rest h ih => simp [squeeze, if_neg h]

theorem mem_squeeze {c : Char} {l : List Char} (h : c ∈ squeeze l) :
    c ∈ l ∨ c = ' ' := by
  induction l using squeeze.induct with
  | case1 => cases h
  | case2 d hd =>
    simp only [squeeze, if_pos hd, List.mem_singleton] at h
    exact Or.inr h
  | case3 d hd =>
    simp only [squeeze, if_neg hd, List.mem_singleton] at h
    exact Or.inl (by simp [h])
  | case4 a b rest hd ih =>
    simp only [squeeze, if_pos hd] at h
    rcases ih h with h1 | h1
    · exact Or.inl (List.mem_cons_of_mem _ h1)
    · exact Or.inr h1
  | case5 a b rest hd ih =>
    simp only [squeeze, if_neg hd, List.mem_cons] at h
    rcases h with h1 | h1
    · by_cases ha : isPySpace a
      · simp only [if_pos ha] at h1; exact Or.inr h1
      · simp only [if_neg ha] at h1; exact Or.inl (by simp [h1])
    · rcases ih h1 with h2 | h2
      · exact Or.inl (List.mem_cons_of_mem _ h2)
      · exact Or.inr h2

theorem squeeze_spaces {c : Char} {l : List Char} (h : c ∈ squeeze l)
    (hs : isPySpace c = true) : c = ' ' := by
  induction l using squeeze.induct with
  | case1 => cases h
  | case2 d hd => simp only [squeeze, if_pos hd, List.mem_singleton] at h; exact h
  | case3 d hd =>
    simp only [squeeze, if_neg hd, List.mem_singleton] at h
    subst h; simp [hs] at hd
  | case4 a b rest hd ih => simp only [squeeze, if_pos hd] at h; exact ih h
  | case5 a b rest hd ih =>
    simp only [squeeze, if_neg hd, List.mem_cons] at h
    rcases h with h1 | h1
    · by_cases ha : isPySpace a
      · simpa [ha] using h1
      · simp only [if_neg ha] at h1; subst h1; simp [hs] at ha
    · exact ih h1

theorem squeeze_noPair {p q : Char → Bool}
    (hp : ∀ c, isPySpace c = true → p c = p ' ')
    (hq : ∀ c, isPySpace c = true → q c = false)
    {l : List Char} (h : noPair p q l) : noPair p q (squeeze l) := by
  induction l using squeeze.induct with
  | case1 => exact List.chain'_nil
  | case2 c hc => by_cases h1 : isPySpace c <;> simp [squeeze, h1, List.chain'_singleton]
  | case3 c hc => simp [squeeze, hc, List.chain'_singleton]
  | case4 a b rest hc ih =>
    simp only [squeeze, if_pos hc]
    exact ih h.tail
  | case5 a b rest hc ih =>
    simp only [squeeze, if_neg hc]
    refine List.chain'_cons'.mpr ⟨?_, ih h.tail⟩
    intro y hy
    rw [squeeze_head?] at hy
    simp only [List.head?_cons, Option.map_some', Option.mem_def,
      Option.some.injEq] at hy
    subst hy
    have hab : RPair p q a b := (List.chain'_cons.mp h).1
    by_cases hb : isPySpace b
    · simp only [if_pos hb]
      intro hcon
      rw [hq ' ' (by decide)] at hcon
      exact absurd hcon.2 (by simp)
    · simp only [if_neg hb]
      by_cases ha : isPySpace a
      · simp only [if_pos ha]
        intro hcon
        exact hab ⟨by rw [hp a ha]; exact hcon.1, hcon.2⟩
      · simp only [if_neg ha]
        exact hab

theorem squeeze_noDouble (l : List Char) : noPair isPySpace isPySpace (squeeze l) := by
  induction l using squeeze.induct with
  | case1 => exact List.chain'_nil
  | case2 c hc => by_cases h1 : isPySpace c <;> simp [squeeze, h1, List.chain'_singleton]
  | case3 c hc => simp [squeeze, hc, List.chain'_singleton]
  | case4 a b rest hc ih => simp only [squeeze, if_pos hc]; exact ih
  | case5 a b rest hc ih =>
    simp only [squeeze, if_neg hc]
    refine List.chain'_cons'.mpr ⟨?_, ih⟩
    intro y hy
    rw [squeeze_head?] at hy
    simp only [List.head?_cons, Option.map_some', Option.mem_def,
      Option.some.injEq] at hy
    subst hy
    by_cases hb : isPySpace b
    · by_cases ha : isPySpace a
      · exact absurd ⟨ha, hb⟩ hc
      · simp only [if_neg ha]
        intro hcon; exact ha hcon.1
    · simp only [if_neg hb]
      intro hcon; exact hb hcon.2

theorem squeeze_fixed {l : List Char} (h1 : noPair isPySpace isPySpace l)
    (h2 : ∀ c ∈ l, isPySpace c = true → c = ' ') : squeeze l = l := by
  induction l using squeeze.induct with
  | case1 => rfl
  | case2 c hc =>
    simp only [squeeze, if_pos hc]
    rw [h2 c (List.mem_singleton_self c) hc]
  | case3 c hc => simp [squeeze, hc]
  | case4 a b rest hc ih =>
    exact absurd ⟨hc.1, hc.2⟩ (List.chain'_cons.mp h1).1
  | case5 a b rest hc ih =>
    simp only [squeeze, if_neg hc]
    have htl : squeeze (b :: rest) = b :: rest :=
      ih h1.tail fun c hcm => h2 c (List.mem_cons_of_mem _ hcm)
    rw [htl]
    by_cases ha : isPySpace a
    · rw [if_pos ha, h2 a (List.mem_cons_self a _) ha]
    · rw [if_neg ha]

theorem lstrip_noPair {p q : Char → Bool} :
    ∀ {l : List Char}, noPair p q l → noPair p q (lstrip l)
  | [], _ => List.chain'_nil
  | c :: cs, h => by
    by_cases hc : isPySpace c
    · rw [show lstrip (c :: cs) = lstrip cs by simp [lstrip, List.dropWhile_cons, hc]]
      exact lstrip_noPair h.tail
    · rwa [show lstrip (c :: cs) = c :: cs by simp [lstrip, List.dropWhile_cons, hc]]

theorem lstrip_head {l : List Char} {d : Char} (h : (lstrip l).head? = some d) :
    isPySpace d = false := by
  induction l with
  | nil => cases h
  | cons c cs ih =>
    by_cases hc : isPySpace c
    · rw [show lstrip (c :: cs) = lstrip cs by simp [lstrip, List.dropWhile_cons, hc]] at h
      exact ih h
    · rw [show lstrip (c :: cs) = c :: cs by simp [lstrip, List.dropWhile_cons, hc]] at h
      simp only [List.head?_cons, Option.some.injEq] at h
      subst h
      exact Bool.eq_false_iff.mpr hc

theorem mem_lstrip {c : Char} {l : List Char} (h : c ∈ lstrip l) : c ∈ l := by
  induction l with
  | nil => cases h
  | cons a as ih =>
    by_cases ha : isPySpace a
    · rw [show lstrip (a :: as) = lstrip as by simp [lstrip, List.dropWhile_cons, ha]] at h
      exact List.mem_cons_of_mem _ (ih h)
    · rwa [show lstrip (a :: as) = a :: as by simp [lstrip, List.dropWhile_cons, ha]] at h

theorem lstrip_fixed {l : List Char} (h : ∀ d ∈ l.head?, isPySpace d = false) :
    lstrip l = l := by
  cases l with
  | nil => rfl
  | cons c cs =>
    have := h c (by simp)
    simp [lstrip, List.dropWhile_cons, this]

theorem rstrip_head {l : List Char} (hne : rstrip l ≠ []) :
    (rstrip l).head? = l.head? := by
  cases l with
  | nil => rfl
  | cons c cs =>
    by_cases h : rstrip cs = []
    · rw [rstrip, if_pos h] at hne ⊢
      by_cases hc : isPySpace c
      · rw [if_pos hc] at hne; exact absurd rfl hne
      · rw [if_neg hc]; rfl
    · rw [rstrip, if_neg h]; rfl

theorem rstrip_noPair {p q : Char → Bool} :
    ∀ {l : List Char}, noPair p q l → noPair p q (rstrip l)
  | [], _ => List.chain'_nil
  | c :: cs, h => by
    by_cases hcs : rstrip cs = []
    · rw [rstrip, if_pos hcs]
      by_cases hc : isPySpace c
      · rw [if_pos hc]; exact List.chain'_nil
      · rw [if_neg hc]; exact List.chain'_singleton c
    · rw [rstrip, if_neg hcs]
      refine List.chain'_cons'.mpr ⟨?_, rstrip_noPair h.tail⟩
      intro y hy
      rw [rstrip_head hcs] at hy
      exact (List.chain'_cons'.mp h).1 y hy

theorem mem_rstrip {c : Char} : ∀ {l : List Char}, c ∈ rstrip l → c ∈ l
  | [], h => by cases h
  | a :: as, h => by
    by_cases has : rstrip as = []
    · rw [rstrip, if_pos has] at h
      by_cases ha : isPySpace a
      · rw [if_pos ha] at h; cases h
      · rw [if_neg ha] at h
        simp only [List.mem_singleton] at h
        simp [h]
    · rw [rstrip, if_neg has] at h
      rcases List.mem_cons.mp h with h1 | h1
      · simp [h1]
      · exact List.mem_cons_of_mem _ (mem_rstrip h1)

theorem rstrip_last {d : Char} :
    ∀ {l : List Char}, (rstrip l).getLast? = some d → isPySpace d = false
  | [], h => by cases h
  | c :: cs, h => by
    by_cases hcs : rstrip cs = []
    · rw [rstrip, if_pos hcs] at h
      by_cases hc : isPySpace c
      · rw [if_pos hc] at h; cases h
      · rw [if_neg hc] at h
        simp only [List.getLast?_singleton, Option.some.injEq] at h
        subst h
        exact Bool.eq_false_iff.mpr hc
    · rw [rstrip, if_neg hcs] at h
      rcases List.exists_cons_of_ne_nil hcs with ⟨e, es, hes⟩
      rw [hes, List.getLast?_cons_cons] at h
      exact rstrip_last (by rw [hes]; exact h)

theorem rstrip_fixed : ∀ {l : List Char},
    (∀ d ∈ l.getLast?, isPySpace d = false) → rstrip l = l
  | [], _ => rfl
  | c :: cs, h => by
    cases cs with
    | nil =>
      have hc := h c (by simp)
      simp [rstrip, hc]
    | cons e es =>
      have htl : rstrip (e :: es) = e :: es := by
        refine rstrip_fixed ?_
        intro d hd
        exact h d (by rw [List.getLast?_cons_cons]; exact hd)
      rw [rstrip, htl]
      simp

theorem collapse_noPair {p q : Char → Bool}
    (hp : ∀ c, isPySpace c = true → p c = p ' ')
    (hq : ∀ c, isPySpace c = true → q c = false)
    {l : List Char} (h : noPair p q l) : noPair p q (collapse l) :=
  rstrip_noPair (lstrip_noPair (squeeze_noPair hp hq h))

theorem collapse_noDouble (l : List Char) :
    noPair isPySpace isPySpace (collapse l) :=
  rstrip_noPair (lstrip_noPair (squeeze_noDouble l))

theorem mem_collapse {c : Char} {l : List Char} (h : c ∈ collapse l) :
    c ∈ l ∨ c = ' ' :=
  mem_squeeze (mem_lstrip (mem_rstrip h))

theorem collapse_spaces {c : Char} {l : List Char} (h : c ∈ collapse l)
    (hs : isPySpace c = true) : c = ' ' :=
  squeeze_spaces (mem_lstrip (mem_rstrip h)) hs

theorem collapse_head {l : List Char} {d : Char}
    (h : (collapse l).head? = some d) : isPySpace d = false := by
  unfold collapse at h
  by_cases hne : rstrip (lstrip (squeeze l)) = []
  · rw [hne] at h; cases h
  · rw [rstrip_head hne] at h
    exact lstrip_head h

theorem collapse_last {l : List Char} {d : Char}
    (h : (collapse l).getLast? = some d) : isPySpace d = false :=
  rstrip_last h

theorem collapse_fixed {l : List Char}
    (h1 : noPair isPySpace isPySpace l)
    (h2 : ∀ c ∈ l, isPySpace c = true → c = ' ')
    (h3 : ∀ d ∈ l.head?, isPySpace d = false)
    (h4 : ∀ d ∈ l.getLast?, isPySpace d = false) : collapse l = l := by
  unfold collapse
  rw [squeeze_fixed h1 h2, lstrip_fixed h3, rstrip_fixed h4]

theorem collapse_idem (l : List Char) : collapse (collapse l) = collapse l :=
  collapse_fixed (collapse_noDouble l) (fun _ h hs => collapse_spaces h hs)
    (fun _ h => collapse_head h) (fun _ h => collapse_last h)

/-! ### delSpaceBefore lemmas -/

theorem mem_delSpaceBefore {q : Char → Bool} {c : Char} :
    ∀ {l : List Char}, c ∈ delSpaceBefore q l → c ∈ l
  | [], h => by cases h
  | a :: as, h => by
    rw [delSpaceBefore] at h
    by_cases hcond : (isPySpace a && nextNonSpaceIs q as) = true
    · rw [if_pos hcond] at h
      exact List.mem_cons_of_mem _ (mem_delSpaceBefore h)
    · rw [if_neg hcond] at h
      rcases List.mem_cons.mp h with h1 | h1
      · simp [h1]
      · exact List.mem_cons_of_mem _ (mem_delSpaceBefore h1)

theorem delSpaceBefore_head {q : Char → Bool} {d : Char} :
    ∀ {l : List Char}, (delSpaceBefore q l).head? = some d →
      isPySpace d = true ∨ (l.dropWhile isPySpace).head? = some d
  | [], h => by cases h
  | a :: as, h => by
    rw [delSpaceBefore] at h
    by_cases ha : isPySpace a
    · rw [List.dropWhile_cons, if_pos ha]
      by_cases hcond : (isPySpace a && nextNonSpaceIs q as) = true
      · rw [if_pos hcond] at h
        exact delSpaceBefore_head h
      · rw [if_neg hcond] at h
        simp only [List.head?_cons, Option.some.injEq] at h
        subst h
        exact Or.inl ha
    · rw [if_neg (by simp [ha])] at h
      simp only [List.head?_cons, Option.some.injEq] at h
      subst h
      rw [List.dropWhile_cons, if_neg ha]
      exact Or.inr rfl

theorem noPair_nextNonSpace {q : Char → Bool} :
    ∀ {l : List Char} {c : Char}, noPair isPySpace q (c :: l) →
      isPySpace c = true → nextNonSpaceIs q l = false
  | [], c, _, _ => rfl
  | e :: es, c, h, hc => by
    by_cases he : isPySpace e
    · have := noPair_nextNonSpace h.tail he
      unfold nextNonSpaceIs at this ⊢
      rwa [List.dropWhile_cons, if_pos he]
    · unfold nextNonSpaceIs
      rw [List.dropWhile_cons, if_neg he]
      have hR : RPair isPySpace q c e := (List.chain'_cons.mp h).1
      rcases Bool.eq_false_or_eq_true (q e) with ht | hf
      · exact absurd ⟨hc, ht⟩ hR
      · exact hf

theorem delSpaceBefore_noPair {q : Char → Bool}
    (hq : ∀ c, isPySpace c = true → q c = false) :
    ∀ (l : List Char), noPair isPySpace q (delSpaceBefore q l)
  | [] => List.chain'_nil
  | a :: as => by
    rw [delSpaceBefore]
    by_cases hcond : (isPySpace a && nextNonSpaceIs q as) = true
    · rw [if_pos hcond]
      exact delSpaceBefore_noPair hq as
    · rw [if_neg hcond]
      refine List.chain'_cons'.mpr ⟨?_, delSpaceBefore_noPair hq as⟩
      intro y hy
      by_cases ha : isPySpace a
      · intro hcon
        rcases delSpaceBefore_head hy with h1 | h1
        · rw [hq y h1] at hcon
          exact absurd hcon.2 (by simp)
        · have hnn : nextNonSpaceIs q as = false := by
            rcases Bool.eq_false_or_eq_true (nextNonSpaceIs q as) with ht | hf
            · exact absurd (by rw [ha, ht]; rfl) hcond
            · exact hf
          unfold nextNonSpaceIs at hnn
          rcases hmatch : List.dropWhile isPySpace as with _ | ⟨d, ds⟩
          · rw [hmatch] at h1; cases h1
          · rw [hmatch] at h1 hnn
            simp only [List.head?_cons, Option.some.injEq] at h1
            subst h1
            have hnn' : q d = false := hnn
            rw [hnn'] at hcon
            exact absurd hcon.2 (by simp)
      · intro hcon
        exact ha hcon.1

theorem delSpaceBefore_fixed {q : Char → Bool} :
    ∀ {l : List Char}, noPair isPySpace q l → delSpaceBefore q l = l
  | [], _ => rfl
  | a :: as, h => by
    rw [delSpaceBefore]
    by_cases ha : isPySpace a
    · rw [if_neg (by rw [ha, noPair_nextNonSpace h ha]; simp)]
      rw [delSpaceBefore_fixed (List.chain'_cons'.mp h).2]
    · rw [if_neg (by simp [ha])]
      rw [delSpaceBefore_fixed (List.chain'_cons'.mp h).2]

/-! ### insSpaceBetween lemmas -/

theorem insSpaceBetween_head? (p q : Char → Bool) :
    ∀ (l : List Char), (insSpaceBetween p q l).head? = l.head?
  | [] => rfl
  | [c] => rfl
  | a :: b :: rest => by
    rw [insSpaceBetween]
    by_cases h : (p a && q b) = true
    · rw [if_pos h]; rfl
    · rw [if_neg h]; rfl

theorem mem_insSpaceBetween {p q : Char → Bool} {c : Char} :
    ∀ {l : List Char}, c ∈ insSpaceBetween p q l → c ∈ l ∨ c = ' '
  | [], h => by cases h
  | [d], h => by
    simp only [insSpaceBetween, List.mem_singleton] at h
    exact Or.inl (by simp [h])
  | a :: b :: rest, h => by
    rw [insSpaceBetween] at h
    by_cases hc : (p a && q b) = true
    · rw [if_pos hc] at h
      simp only [List.mem_cons] at h
      rcases h with h1 | h1 | h1 | h1
      · exact Or.inl (by simp [h1])
      · exact Or.inr h1
      · exact Or.inl (by simp [h1])
      · rcases mem_insSpaceBetween h1 with h2 | h2
        · exact Or.inl (List.mem_cons_of_mem _ (List.mem_cons_of_mem _ h2))
        · exact Or.inr h2
    · rw [if_neg hc] at h
      rcases List.mem_cons.mp h with h1 | h1
      · exact Or.inl (by simp [h1])
      · rcases mem_insSpaceBetween h1 with h2 | h2
        · exact Or.inl (List.mem_cons_of_mem _ h2)
        · exact Or.inr h2

/-- insSpaceBetween establishes the no-(p, q)-pair invariant, provided a
space is neither a p- nor a q-character and no q-character is a
p-character. -/
theorem insSpaceBetween_noPair {p q : Char → Bool}
    (hp : p ' ' = false) (hq : q ' ' = false)
    (hqp : ∀ c, q c = true → p c = false) :
    ∀ (l : List Char), noPair p q (insSpaceBetween p q l)
  | [] => List.chain'_nil
  | [c] => List.chain'_singleton c
  | a :: b :: rest => by
    rw [insSpaceBetween]
    by_cases hc : (p a && q b) = true
    · rw [if_pos hc]
      refine List.chain'_cons.mpr ⟨fun hcon => by rw [hq] at hcon; exact absurd hcon.2 (by simp), ?_⟩
      refine List.chain'_cons.mpr ⟨fun hcon => by rw [hp] at hcon; exact absurd hcon.1 (by simp), ?_⟩
      refine List.chain'_cons'.mpr ⟨?_, insSpaceBetween_noPair hp hq hqp rest⟩
      intro y _
      intro hcon
      have hb : q b = true := (Bool.and_eq_true _ _ |>.mp hc).2
      rw [hqp b hb] at hcon
      exact absurd hcon.1 (by simp)
    · rw [if_neg hc]
      refine List.chain'_cons'.mpr ⟨?_, insSpaceBetween_noPair hp hq hqp (b :: rest)⟩
      intro y hy
      rw [insSpaceBetween_head? p q (b :: rest)] at hy
      simp only [List.head?_cons, Option.mem_def, Option.some.injEq] at hy
      subst hy
      intro hcon
      exact hc (by rw [hcon.1, hcon.2]; rfl)

/-- insSpaceBetween p q preserves a foreign no-(p', q')-pair invariant,
provided inserting a space cannot create a (p', q') pair around it. -/
theorem insSpaceBetween_noPair' {p q p' q' : Char → Bool}
    (hA : ∀ a, RPair p' q' a ' ')
    (hB : ∀ b, q b = true → RPair p' q' ' ' b) :
    ∀ {l : List Char}, noPair p' q' l → noPair p' q' (insSpaceBetween p q l)
  | [], _ => List.chain'_nil
  | [c], _ => List.chain'_singleton c
  | a :: b :: rest, h => by
    rw [insSpaceBetween]
    have hab : RPair p' q' a b := (List.chain'_cons.mp h).1
    have htl : noPair p' q' (b :: rest) := (List.chain'_cons.mp h).2
    by_cases hc : (p a && q b) = true
    · rw [if_pos hc]
      refine List.chain'_cons.mpr ⟨hA a, ?_⟩
      refine List.chain'_cons.mpr ⟨hB b (Bool.and_eq_true _ _ |>.mp hc).2, ?_⟩
      refine List.chain'_cons'.mpr ⟨?_, insSpaceBetween_noPair' hA hB htl.tail⟩
      intro y hy
      rw [insSpaceBetween_head? p q rest] at hy
      exact (List.chain'_cons'.mp htl).1 y hy
    · rw [if_neg hc]
      refine List.chain'_cons'.mpr ⟨?_, insSpaceBetween_noPair' hA hB htl⟩
      intro y hy
      rw [insSpaceBetween_head? p q (b :: rest)] at hy
      simp only [List.head?_cons, Option.mem_def, Option.some.injEq] at hy
      subst hy
      exact hab

theorem insSpaceBetween_fixed {p q : Char → Bool} :
    ∀ {l : List Char}, noPair p q l → insSpaceBetween p q l = l
  | [], _ => rfl
  | [c], _ => rfl
  | a :: b :: rest, h => by
    rw [insSpaceBetween]
    have hab : RPair p q a b := (List.chain'_cons.mp h).1
    rw [if_neg fun hc => hab ⟨(Bool.and_eq_true _ _ |>.mp hc).1, (Bool.and_eq_true _ _ |>.mp hc).2⟩]
    rw [insSpaceBetween_fixed (List.chain'_cons.mp h).2]

/-! ### map and filter helpers -/

theorem map_noPair {p q : Char → Bool} {f : Char → Char}
    (hp : ∀ c, p (f c) = true → p c = true)
    (hq : ∀ c, q (f c) = true → q c = true)
    {l : List Char} (h : noPair p q l) : noPair p q (l.map f) := by
  refine (List.chain'_map f).mpr (h.imp ?_)
  intro a b hab hcon
  exact hab ⟨hp a hcon.1, hq b hcon.2⟩

theorem map_fixed {f : Char → Char} {l : List Char}
    (h : ∀ c ∈ l, f c = c) : l.map f = l := by
  induction l with
  | nil => rfl
  | cons a as ih =>
    rw [List.map_cons, h a (List.mem_cons_self a _),
      ih fun c hc => h c (List.mem_cons_of_mem _ hc)]

/-! ### quoteDashMap facts -/

theorem qd_cases (c : Char) : quoteDashMap c = c ∨ quoteDashMap c = '"' ∨
    quoteDashMap c = '\x27' ∨ quoteDashMap c = '-' := by
  unfold quoteDashMap
  split_ifs <;> simp

theorem qd_idem (c : Char) : quoteDashMap (quoteDashMap c) = quoteDashMap c := by
  rcases qd_cases c with h | h | h | h <;> rw [h]
  · exact h
  · decide
  · decide
  · decide

theorem qd_space {c : Char} (h : isPySpace (quoteDashMap c) = true) :
    isPySpace c = true := by
  rcases qd_cases c with h1 | h1 | h1 | h1 <;> rw [h1] at h
  · exact h
  all_goals cases h

theorem qd_punct {c : Char} (h : isPunctCls (quoteDashMap c) = true) :
    isPunctCls c = true := by
  rcases qd_cases c with h1 | h1 | h1 | h1 <;> rw [h1] at h
  · exact h
  all_goals cases h

theorem qd_alpha {c : Char} (h : isAsciiAlpha (quoteDashMap c) = true) :
    isAsciiAlpha c = true := by
  rcases qd_cases c with h1 | h1 | h1 | h1 <;> rw [h1] at h
  · exact h
  all_goals cases h

theorem nbsp_cases (c : Char) : nbspToSpace c = c ∨ nbspToSpace c = ' ' := by
  unfold nbspToSpace
  split_ifs <;> simp

/-! ### Invariants of the output of base_quirks -/

theorem bq_shape (s : List Char) : ∃ t, base_quirks s = collapse t := by
  by_cases hs : s = []
  · subst hs
    exact ⟨[], rfl⟩
  · refine ⟨insSpaceBetween (fun c => c = '.') isAsciiUpper
      (List.map quoteDashMap (insSpaceBetween isPunctCls isAsciiAlpha
        (delSpaceBefore isPunctCls
          (List.filter (fun c => c ≠ '\u200b')
            (List.map nbspToSpace (collapse s)))))), ?_⟩
    simp only [base_quirks, if_neg hs]

theorem bq_noDouble (s : List Char) :
    noPair isPySpace isPySpace (base_quirks s) := by
  obtain ⟨t, ht⟩ := bq_shape s
  rw [ht]; exact collapse_noDouble t

theorem bq_spaces (s : List Char) :
    ∀ c ∈ base_quirks s, isPySpace c = true → c = ' ' := by
  obtain ⟨t, ht⟩ := bq_shape s
  rw [ht]; exact fun _ h hs => collapse_spaces h hs

theorem bq_head (s : List Char) :
    ∀ d ∈ (base_quirks s).head?, isPySpace d = false := by
  obtain ⟨t, ht⟩ := bq_shape s
  rw [ht]; exact fun _ h => collapse_head h

theorem bq_last (s : List Char) :
    ∀ d ∈ (base_quirks s).getLast?, isPySpace d = false := by
  obtain ⟨t, ht⟩ := bq_shape s
  rw [ht]; exact fun _ h => collapse_last h

theorem bq_spacePunct (s : List Char) :
    noPair isPySpace isPunctCls (base_quirks s) := by
  by_cases hs : s = []
  · subst hs; exact List.chain'_nil
  · simp only [base_quirks, if_neg hs]
    refine collapse_noPair (fun c h => by rw [h]; rfl) (fun c h => space_not_punct h) ?_
    refine insSpaceBetween_noPair' (fun a hcon => absurd hcon.2 (by simp [isPunctCls]))
      (fun b hb hcon => absurd hcon.2 (Bool.eq_false_iff.mp
        (alpha_not_punct (upper_alpha hb)))) ?_
    refine map_noPair (fun c => qd_space) (fun c => qd_punct) ?_
    refine insSpaceBetween_noPair' (fun a hcon => absurd hcon.2 (by simp [isPunctCls]))
      (fun b hb hcon => absurd hcon.2 (Bool.eq_false_iff.mp (alpha_not_punct hb))) ?_
    exact delSpaceBefore_noPair (fun c => space_not_punct) _

theorem bq_punctAlpha (s : List Char) :
    noPair isPunctCls isAsciiAlpha (base_quirks s) := by
  by_cases hs : s = []
  · subst hs; exact List.chain'_nil
  · simp only [base_quirks, if_neg hs]
    refine collapse_noPair (fun c h => by rw [space_not_punct h]; rfl)
      (fun c h => space_not_alpha h) ?_
    refine insSpaceBetween_noPair' (fun a hcon => absurd hcon.2 (by decide))
      (fun b _ hcon => absurd hcon.1 (by decide)) ?_
    refine map_noPair (fun c => qd_punct) (fun c => qd_alpha) ?_
    exact insSpaceBetween_noPair (by decide) (by decide)
      (fun c hc => alpha_not_punct hc) _

theorem nbsp_ne_nbsp (e : Char) : nbspToSpace e ≠ '\xa0' := by
  unfold nbspToSpace
  split_ifs with h
  · decide
  · exact h

theorem bq_chars (s : List Char) :
    ∀ c ∈ base_quirks s, c ≠ '\xa0' ∧ c ≠ '\u200b' ∧ quoteDashMap c = c := by
  by_cases hs : s = []
  · subst hs; intro c hc; cases hc
  · simp only [base_quirks, if_neg hs]
    intro c hc
    rcases mem_collapse hc with hc1 | hc1
    swap
    · subst hc1; exact ⟨by decide, by decide, by decide⟩
    rcases mem_insSpaceBetween hc1 with hc2 | hc2
    swap
    · subst hc2; exact ⟨by decide, by decide, by decide⟩
    rcases List.mem_map.mp hc2 with ⟨d, hdmem, hd⟩
    subst hd
    have hdt2 : d ≠ '\xa0' ∧ d ≠ '\u200b' := by
      rcases mem_insSpaceBetween hdmem with hd3 | hd3
      · have hd2 := mem_delSpaceBefore hd3
        rcases List.mem_filter.mp hd2 with ⟨hd1, hflt⟩
        rcases List.mem_map.mp hd1 with ⟨e, _, he⟩
        subst he
        exact ⟨nbsp_ne_nbsp e, by simpa using hflt⟩
      · subst hd3; exact ⟨by decide, by decide⟩
    refine ⟨?_, ?_, qd_idem d⟩
    · rcases qd_cases d with h | h | h | h <;> rw [h]
      · exact hdt2.1
      · decide
      · decide
      · decide
    · rcases qd_cases d with h | h | h | h <;> rw [h]
      · exact hdt2.2
      · decide
      · decide
      · decide

/-- C2: the base normalization layer is idempotent: for every input string x,
base_quirks (base_quirks x) = base_quirks x (quirks.py, QuirksProcessor.base_quirks). -/
theorem base_quirks_idempotent (s : List Char) :
    base_quirks (base_quirks s) = base_quirks s := by
  by_cases hy : base_quirks s = []
  · rw [hy]; rfl
  · have hnd := bq_noDouble s
    have hsp := bq_spaces s
    have hhd := bq_head s
    have hlast := bq_last s
    have hspp := bq_spacePunct s
    have hpa := bq_punctAlpha s
    have hch := bq_chars s
    set y := base_quirks s with hdef
    have hdotu : noPair (fun c => decide (c = '.')) isAsciiUpper y := by
      refine hpa.imp ?_
      intro a b hab hcon
      have ha : a = '.' := of_decide_eq_true hcon.1
      exact hab ⟨by rw [ha]; decide, upper_alpha hcon.2⟩
    simp only [base_quirks]
    rw [if_neg hy]
    rw [collapse_fixed hnd hsp hhd hlast]
    rw [show List.map nbspToSpace y = y from map_fixed fun c hc => by
      unfold nbspToSpace
      exact if_neg (hch c hc).1]
    rw [show List.filter (fun c => decide (c ≠ '\u200b')) y = y from
      List.filter_eq_self.mpr fun c hc => decide_eq_true (hch c hc).2.1]
    rw [delSpaceBefore_fixed hspp]
    rw [insSpaceBetween_fixed hpa]
    rw [show List.map quoteDashMap y = y from
      map_fixed fun c hc => (hch c hc).2.2]
    rw [insSpaceBetween_fixed hdotu]
    exact collapse_fixed hnd hsp hhd hlast

/-! ## Sentence segmentation (supermajority.py, extract_sentences) -/

/-- The regex class [.!?] of sentence-terminal punctuation
(supermajority.py line 21). -/
def isTermPunct (c : Char) : Bool := c = '.' || c = '!' || c = '?'

def headIsTerm (acc : List Char) : Bool :=
  match acc with
  | p :: _ => isTermPunct p
  | [] => false

/-- re.split(r'(?<=[.!?])\s+', text) (supermajority.py line 21), as a left
to right scan: a whitespace character belongs to a separator exactly when
the previous character was sentence-terminal punctuation (the lookbehind)
or was itself part of the current separator run; the separator run is
consumed.  acc is the reversed current segment, inSep says whether the scan
stands inside a separator run. -/
def splitSentencesAux : List Char → Bool → List Char → List (List Char)
  | [], _, acc => [acc.reverse]
  | c :: cs, inSep, acc =>
    if isPySpace c && (inSep || headIsTerm acc) then
      if inSep then splitSentencesAux cs true acc
      else acc.reverse :: splitSentencesAux cs true []
    else splitSentencesAux cs false (c :: acc)

def pySplitSentences (t : List Char) : List (List Char) :=
  splitSentencesAux t false []

/-- SupermajorityExtractor.extract_sentences (supermajority.py lines 14-22):
split into sentences, strip each, and keep those with len(s.strip()) > 20. -/
def extract_sentences (t : List Char) : List (List Char) :=
  (pySplitSentences t).filterMap fun s =>
    let st := pyStrip s
    if 20 < st.length then some st else none

example : pySplitSentences ("One two. Three  four! Five".data) =
    [("One two.".data), ("Three  four!".data), ("Five".data)] := by decide

example : extract_sentences ("Short. This segment is long enough to stay.".data) =
    [("This segment is long enough to stay.".data)] := by decide

/-! ## Supermajority voting (supermajority.py, extract) -/

/-- ' '.join(sentence.split()) (supermajority.py line 56): whitespace
canonicalization of a sentence before tallying; the same function as
collapse. -/
def canonSentence (s : List Char) : List Char := collapse s

/-- The canonicalized sentences one text contributes to the tally. -/
def canonSentences (t : List Char) : List (List Char) :=
  (extract_sentences t).map canonSentence

/-- The guard not text or text.startswith("ERROR:") (supermajority.py
line 51) that makes the voting loop skip an entry. -/
def isSkippedText (t : List Char) : Bool :=
  t.isEmpty || decide (t.take 6 = ("ERROR:".data))

/-- The dict sentence_to_extractors as an insertion-ordered association
list from canonicalized sentence to the insertion-ordered duplicate-free
list of contributing sources.  Python stores a set of sources, of which
only len, add and membership are used, so this list is a faithful model. -/
abbrev Tally := List (List Char × List (List Char))

/-- sentence_to_extractors[normalized].add(lib), creating the key if absent
(supermajority.py lines 58-63). -/
def tallyInsert : Tally → List Char → List Char → Tally
  | [], s, lib => [(s, [lib])]
  | (s', libs) :: rest, s, lib =>
    if s' = s then (s', if lib ∈ libs then libs else libs ++ [lib]) :: rest
    else (s', libs) :: tallyInsert rest s lib

/-- Key membership: normalized in sentence_to_extractors. -/
def tallyHas : Tally → List Char → Bool
  | [], _ => false
  | (s', _) :: rest, s => decide (s' = s) || tallyHas rest s

/-- The contributing-source list of a sentence ([] when the sentence is not
in the tally). -/
def libsOf : Tally → List Char → List (List Char)
  | [], _ => []
  | (s', libs) :: rest, s => if s' = s then libs else libsOf rest s

/-- len(sentence_to_extractors[sentence]): the vote count of a sentence. -/
def tallyVotes (tal : Tally) (s : List Char) : Nat := (libsOf tal s).length

/-- The loop body of supermajority.py lines 55-63 for one sentence:
record first-seen order for the reference source, then add the source to
the sentence's set. -/
def tallySentence (first_lib lib : List Char) (st : Tally × List (List Char))
    (sent : List Char) : Tally × List (List Char) :=
  let n := canonSentence sent
  let ord := if tallyHas st.1 n = false ∧ lib = first_lib then st.2 ++ [n] else st.2
  (tallyInsert st.1 n lib, ord)

/-- The loop body of supermajority.py lines 50-63 for one mapping entry. -/
def tallyText (first_lib : List Char) (st : Tally × List (List Char))
    (entry : List Char × List Char) : Tally × List (List Char) :=
  if isSkippedText entry.2 then st
  else (extract_sentences entry.2).foldl (tallySentence first_lib entry.1) st

/-- The vote-counting loop (supermajority.py lines 42-63) over the
insertion-ordered mapping, returning (sentence_to_extractors,
sentence_order).  The designated reference source first_lib is the first
key of the mapping. -/
def buildTally (texts : List (List Char × List Char)) : Tally × List (List Char) :=
  match texts with
  | [] => ([], [])
  | (fl, _) :: _ => texts.foldl (tallyText fl) ([], [])

/-- The high_confidence list (supermajority.py lines 71-81): the reference-
ordered sentences with vote count ≥ threshold, followed by the remaining
tallied sentences with vote count ≥ threshold, in tally order, skipping
those already present. -/
def keptSentences (texts : List (List Char × List Char)) (min_extractors : Nat) :
    List (List Char) :=
  let tal := (buildTally texts).1
  let hc1 := (buildTally texts).2.filter fun s => min_extractors ≤ tallyVotes tal s
  tal.foldl (fun hc e =>
    if min_extractors ≤ e.2.length ∧ e.1 ∉ hc then hc ++ [e.1] else hc) hc1

/-- sentence[:80] + '...' if len(sentence) > 80 else sentence
(supermajority.py line 76). -/
def trunc80 (s : List Char) : List Char :=
  if 80 < s.length then s.take 80 ++ ("...".data) else s

/-- stats['by_vote_count'][vote_count].append(...) on the literal dict
{4: [], 3: [], 2: [], 1: []} (supermajority.py lines 68 and 76): appending
at an absent key raises KeyError, modelled as none. -/
def bvAppend : List (Nat × List (List Char)) → Nat → List Char →
    Option (List (Nat × List (List Char)))
  | [], _, _ => none
  | (k, l) :: rest, v, s =>
    if k = v then some ((k, l ++ [s]) :: rest)
    else (bvAppend rest v s).map fun r => (k, l) :: r

/-- The stats['by_vote_count'] appends of the loop over sentence_order
(supermajority.py lines 72-76). -/
def byVoteCount (tal : Tally) (ord : List (List Char)) :
    Option (List (Nat × List (List Char))) :=
  ord.foldl
    (fun acc s => acc.bind fun bv => bvAppend bv (tallyVotes tal s) (trunc80 s))
    (some [(4, []), (3, []), (2, []), (1, [])])

/-- '. '.join(high_confidence) (supermajority.py line 83). -/
def joinDotSpace : List (List Char) → List Char
  | [] => []
  | [x] => x
  | x :: y :: rest => x ++ '.' :: ' ' :: joinDotSpace (y :: rest)

/-- The voting_stats dictionary of SupermajorityExtractor.extract. -/
structure VotingStats where
  total_unique_sentences : Nat
  by_vote_count : List (Nat × List (List Char))
  sentences_kept : Nat
  threshold : Nat
deriving DecidableEq

/-- SupermajorityExtractor.extract (supermajority.py lines 24-90).  Returns
none where the Python raises: IndexError at list(texts.keys())[0] on an
empty mapping (line 46), or KeyError when some reference-ordered sentence
has a vote count outside {1, 2, 3, 4} (line 76).  The local variable
first_sentences (line 47) is computed and never used, so it is omitted.
Reconstruction (lines 83-85): join the kept sentences with ". ", then
append one final '.' unless the result is empty or already ends in '.'. -/
def extract (texts : List (List Char × List Char)) (min_extractors : Nat) :
    Option (List Char × VotingStats) :=
  match texts with
  | [] => none
  | _ :: _ =>
    let tal := (buildTally texts).1
    match byVoteCount tal (buildTally texts).2 with
    | none => none
    | some bv =>
      let hc := keptSentences texts min_extractors
      let joined := joinDotSpace hc
      let reconstructed :=
        if joined ≠ [] ∧ joined.getLast? ≠ some '.' then joined ++ ['.'] else joined
      some (reconstructed,
        { total_unique_sentences := tal.length
          by_vote_count := bv
          sentences_kept := hc.length
          threshold := min_extractors })

example :
    extract [(("a".data), ("This shared sentence is long one. Unique to source a here ok.".data)),
             (("b".data), ("This shared sentence is long one.".data))] 2 =
    some (("This shared sentence is long one.".data),
      { total_unique_sentences := 2
        by_vote_count := [(4, []), (3, []), (2, [("This shared sentence is long one.".data)]),
                          (1, [("Unique to source a here ok.".data)])]
        sentences_kept := 1
        threshold := 2 }) := by decide

/-- C1 (code_bug evidence): on the empty input mapping the Python voter
raises IndexError at list(texts.keys())[0] (supermajority.py line 46)
instead of returning the empty VotingResult the spec requires; the model
returns none (the exception) for every threshold. -/
theorem extract_empty_mapping_raises (min_extractors : Nat) :
    extract [] min_extractors = none := rfl

/-- C3 (code_bug evidence): a single segment whose trimmed length is
exactly 20 is discarded by extract_sentences, because the code keeps only
len(s.strip()) > 20 (supermajority.py line 22) while its own docstring
says it filters out sentences of fewer than 20 characters; a segment of
trimmed length 21 is kept. -/
theorem extract_sentences_boundary :
    (pyStrip ("abcdefghijklmnopqrst".data)).length = 20 ∧
    extract_sentences ("abcdefghijklmnopqrst".data) = [] ∧
    (pyStrip ("abcdefghijklmnopqrstu".data)).length = 21 ∧
    extract_sentences ("abcdefghijklmnopqrstu".data) =
      [("abcdefghijklmnopqrstu".data)] := by decide

/-! ## Spec-side definitions for the voting claims -/

/-- Spec side: the surviving (not skipped) sources of the input mapping. -/
def survivingSources (texts : List (List Char × List Char)) : List (List Char) :=
  (texts.filter fun e => !isSkippedText e.2).map Prod.fst

/-- Spec side: the distinct surviving sources whose canonicalized sentence
list contains s, in mapping order. -/
def sourcesContaining (texts : List (List Char × List Char)) (s : List Char) :
    List (List Char) :=
  (texts.filter fun e => !isSkippedText e.2 && decide (s ∈ canonSentences e.2)).map
    Prod.fst

/-- Spec side: first-seen deduplication, keeping each element at its first
occurrence. -/
def dedupKeepFirst : List (List Char) → List (List Char)
  | [] => []
  | s :: rest => s :: (dedupKeepFirst rest).filter fun x => x ≠ s

/-- Spec side: the reference ordering of the voter: the first-seen-ordered
distinct canonicalized sentences of the first (reference) source, empty
when that source is skipped. -/
def referenceOrder (texts : List (List Char × List Char)) : List (List Char) :=
  match texts with
  | [] => []
  | (_, t0) :: _ =>
    if isSkippedText t0 then [] else dedupKeepFirst (canonSentences t0)

/-- The keys of the tally, in insertion order. -/
def keysOf (tal : Tally) : List (List Char) := tal.map Prod.fst

/-! ### Closed forms for the tally fold -/

theorem libsOf_insert_self (tal : Tally) (n lib : List Char) :
    libsOf (tallyInsert tal n lib) n =
      if lib ∈ libsOf tal n then libsOf tal n else libsOf tal n ++ [lib] := by
  induction tal with
  | nil => simp [tallyInsert, libsOf]
  | cons e rest ih =>
    rcases e with ⟨s', libs⟩
    by_cases h : s' = n
    · subst h
      simp [tallyInsert, libsOf]
    · simp only [tallyInsert, if_neg h, libsOf, if_neg h]
      exact ih

theorem libsOf_insert_other (tal : Tally) {n s : List Char} (lib : List Char)
    (h : s ≠ n) : libsOf (tallyInsert tal n lib) s = libsOf tal s := by
  have hns : ¬(n = s) := fun hh => h hh.symm
  induction tal with
  | nil => simp [tallyInsert, libsOf, hns]
  | cons e rest ih =>
    rcases e with ⟨s', libs⟩
    by_cases h1 : s' = n
    · subst h1
      simp [tallyInsert, libsOf, hns]
    · simp only [tallyInsert, if_neg h1, libsOf]
      by_cases h2 : s' = s
      · simp [h2]
      · simp only [if_neg h2]
        exact ih

theorem tallyHas_iff_mem {tal : Tally} {s : List Char} :
    tallyHas tal s = true ↔ s ∈ keysOf tal := by
  induction tal with
  | nil => simp [tallyHas, keysOf]
  | cons e rest ih =>
    rcases e with ⟨s', libs⟩
    simp only [tallyHas, keysOf, List.map_cons, List.mem_cons, Bool.or_eq_true,
      decide_eq_true_eq]
    rw [ih]
    constructor
    · rintro (h | h)
      · exact Or.inl h.symm
      · exact Or.inr h
    · rintro (h | h)
      · exact Or.inl h.symm
      · exact Or.inr h

theorem keys_insert (tal : Tally) (n lib : List Char) :
    keysOf (tallyInsert tal n lib) =
      if tallyHas tal n then keysOf tal else keysOf tal ++ [n] := by
  induction tal with
  | nil => simp [tallyInsert, tallyHas, keysOf]
  | cons e rest ih =>
    rcases e with ⟨s', libs⟩
    by_cases h : s' = n
    · subst h
      simp [tallyInsert, tallyHas, keysOf]
    · simp only [tallyInsert, if_neg h]
      have hhas : tallyHas ((s', libs) :: rest) n = tallyHas rest n := by
        simp [tallyHas, h]
      rw [hhas]
      have hk : ∀ (t : Tally), keysOf ((s', libs) :: t) = s' :: keysOf t :=
        fun t => rfl
      rw [hk, hk]
      by_cases h2 : tallyHas rest n = true
      · rw [if_pos h2, ih, if_pos h2]
      · rw [if_neg h2, ih, if_neg h2]
        rfl

/-- The contributing-source list of s after one text's sentences are
folded into the tally: the source lib is appended once if the text
contains s and lib was not already recorded for s. -/
theorem libsOf_foldSentences (fl lib : List Char) :
    ∀ (sents : List (List Char)) (st : Tally × List (List Char)) (s : List Char),
      libsOf ((sents.foldl (tallySentence fl lib) st).1) s =
        if lib ∈ libsOf st.1 s then libsOf st.1 s
        else if s ∈ sents.map canonSentence then libsOf st.1 s ++ [lib]
        else libsOf st.1 s
  | [], st, s => by
    by_cases h : lib ∈ libsOf st.1 s <;> simp [h]
  | x :: xs, st, s => by
    rw [List.foldl_cons]
    rw [libsOf_foldSentences fl lib xs (tallySentence fl lib st x) s]
    by_cases hsx : s = canonSentence x
    · by_cases hmem : lib ∈ libsOf st.1 s
      · have hstep : libsOf (tallySentence fl lib st x).1 s = libsOf st.1 s := by
          simp only [tallySentence]
          rw [← hsx, libsOf_insert_self, if_pos hmem]
        rw [hstep, if_pos hmem, if_pos hmem]
      · have hstep : libsOf (tallySentence fl lib st x).1 s =
            libsOf st.1 s ++ [lib] := by
          simp only [tallySentence]
          rw [← hsx, libsOf_insert_self, if_neg hmem]
        rw [hstep, if_pos (by simp), if_neg hmem,
          if_pos (by rw [hsx]; simp [List.map_cons])]
    · have hstep : libsOf (tallySentence fl lib st x).1 s = libsOf st.1 s := by
        simp only [tallySentence]
        exact libsOf_insert_other _ lib hsx
      rw [hstep]
      have hmm : (s ∈ (x :: xs).map canonSentence) ↔ (s ∈ xs.map canonSentence) := by
        simp only [List.map_cons, List.mem_cons]
        constructor
        · rintro (h | h)
          · exact absurd h hsx
          · exact h
        · exact Or.inr
      by_cases hmem : lib ∈ libsOf st.1 s
      · rw [if_pos hmem, if_pos hmem]
      · rw [if_neg hmem, if_neg hmem]
        by_cases hin : s ∈ xs.map canonSentence
        · rw [if_pos hin, if_pos (hmm.mpr hin)]
        · rw [if_neg hin, if_neg (fun hc => hin (hmm.mp hc))]

/-- One entry's effect on a sentence's contributing-source list. -/
theorem libsOf_tallyText (fl : List Char) (st : Tally × List (List Char))
    (e : List Char × List Char) (s : List Char)
    (hnotin : e.1 ∉ libsOf st.1 s) :
    libsOf (tallyText fl st e).1 s =
      if !isSkippedText e.2 && decide (s ∈ canonSentences e.2) then
        libsOf st.1 s ++ [e.1]
      else libsOf st.1 s := by
  unfold tallyText
  by_cases hskip : isSkippedText e.2 = true
  · rw [if_pos hskip]
    rw [show (!isSkippedText e.2 && decide (s ∈ canonSentences e.2)) = false by
      simp [hskip]]
    simp
  · rw [if_neg hskip]
    rw [libsOf_foldSentences fl e.1 (extract_sentences e.2) st s, if_neg hnotin]
    have hbe : isSkippedText e.2 = false := Bool.eq_false_iff.mpr hskip
    by_cases hin : s ∈ canonSentences e.2
    · rw [if_pos (by unfold canonSentences at hin; exact hin),
        if_pos (by simp [hbe, hin])]
    · rw [if_neg (by unfold canonSentences at hin; exact hin),
        if_neg (by simp [hbe, hin])]

/-- The entry fold accumulates exactly the surviving sources containing s,
provided no upcoming source is already recorded for s. -/
theorem libsOf_foldTexts (fl : List Char) :
    ∀ (l : List (List Char × List Char)) (st : Tally × List (List Char))
      (s : List Char),
      (l.map Prod.fst).Nodup → (∀ e ∈ l, e.1 ∉ libsOf st.1 s) →
      libsOf ((l.foldl (tallyText fl) st).1) s =
        libsOf st.1 s ++ sourcesContaining l s
  | [], st, s, _, _ => by simp [sourcesContaining]
  | e :: l', st, s, hnd, hnotin => by
    rw [List.foldl_cons]
    have hstep := libsOf_tallyText fl st e s (hnotin e (List.mem_cons_self e _))
    have hnd' : (l'.map Prod.fst).Nodup := by
      rw [List.map_cons] at hnd
      exact hnd.of_cons
    have hne : ∀ e' ∈ l', e'.1 ≠ e.1 := by
      intro e' he'
      rw [List.map_cons] at hnd
      intro hcon
      exact (List.nodup_cons.mp hnd).1 (hcon ▸ List.mem_map_of_mem Prod.fst he')
    have hnotin' : ∀ e' ∈ l', e'.1 ∉ libsOf (tallyText fl st e).1 s := by
      intro e' he'
      rw [hstep]
      by_cases hc : (!isSkippedText e.2 && decide (s ∈ canonSentences e.2)) = true
      · rw [if_pos hc]
        intro hmem
        rcases List.mem_append.mp hmem with h1 | h1
        · exact hnotin e' (List.mem_cons_of_mem _ he') h1
        · exact hne e' he' (List.mem_singleton.mp h1)
      · rw [if_neg hc]
        exact hnotin e' (List.mem_cons_of_mem _ he')
    rw [libsOf_foldTexts fl l' (tallyText fl st e) s hnd' hnotin']
    rw [hstep]
    have hsc : sourcesContaining (e :: l') s =
        (if (!isSkippedText e.2 && decide (s ∈ canonSentences e.2)) = true
         then [e.1] else []) ++ sourcesContaining l' s := by
      unfold sourcesContaining
      rw [List.filter_cons]
      by_cases hc : (!isSkippedText e.2 && decide (s ∈ canonSentences e.2)) = true
      · rw [if_pos hc, if_pos hc]
        rfl
      · rw [if_neg hc, if_neg hc]
        rfl
    rw [hsc]
    by_cases hc : (!isSkippedText e.2 && decide (s ∈ canonSentences e.2)) = true
    · rw [if_pos hc, if_pos hc, List.append_assoc]
    · rw [if_neg hc, if_neg hc]
      rfl

/-- Closed form of the vote tally: after buildTally, the contributing-source
list of every sentence s is exactly the list of surviving sources whose
canonicalized sentences contain s, in mapping order (for a mapping with
distinct keys, as a Python dict always has). -/
theorem libsOf_buildTally (texts : List (List Char × List Char))
    (hnd : (texts.map Prod.fst).Nodup) (s : List Char) :
    libsOf (buildTally texts).1 s = sourcesContaining texts s := by
  cases texts with
  | nil => rfl
  | cons e rest =>
    unfold buildTally
    rw [libsOf_foldTexts e.1 (e :: rest) ([], []) s hnd
      (fun e' _ hmem => by cases hmem)]
    rfl

/-! ### Structural invariants of the tally -/

theorem foldl_inv {α β : Type} {P : α → Prop} {f : α → β → α} :
    ∀ (l : List β) (a : α), (∀ x b, b ∈ l → P x → P (f x b)) → P a →
      P (l.foldl f a)
  | [], _, _, h => h
  | b :: l', a, hf, h =>
    foldl_inv l' (f a b) (fun x b' hb' => hf x b' (List.mem_cons_of_mem _ hb'))
      (hf a b (List.mem_cons_self b _) h)

/-- The state invariant of the vote-counting loop: tally keys are distinct,
the reference ordering is duplicate-free and mentions only tallied
sentences. -/
def TallyInv (st : Tally × List (List Char)) : Prop :=
  (keysOf st.1).Nodup ∧ st.2.Nodup ∧ st.2 ⊆ keysOf st.1

theorem tallySentence_inv (fl lib : List Char) (st : Tally × List (List Char))
    (x : List Char) (h : TallyInv st) : TallyInv (tallySentence fl lib st x) := by
  obtain ⟨hk, ho, hsub⟩ := h
  have hkeys := keys_insert st.1 (canonSentence x) lib
  by_cases hhas : tallyHas st.1 (canonSentence x) = true
  · rw [if_pos hhas] at hkeys
    refine ⟨by rw [show (tallySentence fl lib st x).1 =
        tallyInsert st.1 (canonSentence x) lib from rfl, hkeys]; exact hk, ?_, ?_⟩
    · simp only [tallySentence]
      rw [if_neg (by simp [hhas])]
      exact ho
    · simp only [tallySentence]
      rw [if_neg (by simp [hhas]), hkeys]
      exact hsub
  · have hnotin : canonSentence x ∉ keysOf st.1 :=
      fun hc => hhas (tallyHas_iff_mem.mpr hc)
    rw [if_neg hhas] at hkeys
    have hk' : (keysOf (tallyInsert st.1 (canonSentence x) lib)).Nodup := by
      rw [hkeys]
      simp only [List.nodup_append, List.nodup_cons, List.not_mem_nil,
        not_false_iff, List.nodup_nil, and_true, true_and]
      constructor
      · exact hk
      · intro a ha hb
        simp only [List.mem_singleton] at hb
        exact hnotin (hb ▸ ha)
    refine ⟨hk', ?_, ?_⟩
    · simp only [tallySentence]
      by_cases hcond : tallyHas st.1 (canonSentence x) = false ∧ lib = fl
      · rw [if_pos hcond]
        simp only [List.nodup_append, List.nodup_cons, List.not_mem_nil,
          not_false_iff, List.nodup_nil, and_true, true_and]
        refine ⟨ho, ?_⟩
        intro a ha hb
        simp only [List.mem_singleton] at hb
        exact hnotin (hb ▸ hsub ha)
      · rw [if_neg hcond]
        exact ho
    · simp only [tallySentence]
      by_cases hcond : tallyHas st.1 (canonSentence x) = false ∧ lib = fl
      · rw [if_pos hcond, hkeys]
        intro a ha
        rcases List.mem_append.mp ha with h1 | h1
        · exact List.mem_append_left _ (hsub h1)
        · exact List.mem_append_right _ h1
      · rw [if_neg hcond, hkeys]
        intro a ha
        exact List.mem_append_left _ (hsub ha)

theorem tallyText_inv (fl : List Char) (st : Tally × List (List Char))
    (e : List Char × List Char) (h : TallyInv st) : TallyInv (tallyText fl st e) := by
  unfold tallyText
  by_cases hskip : isSkippedText e.2 = true
  · rwa [if_pos hskip]
  · rw [if_neg hskip]
    exact foldl_inv _ st (fun x b _ hx => tallySentence_inv fl e.1 x b hx) h

theorem buildTally_inv (texts : List (List Char × List Char)) :
    TallyInv (buildTally texts) := by
  cases texts with
  | nil => exact ⟨List.nodup_nil, List.nodup_nil, fun a ha => ha⟩
  | cons e rest =>
    unfold buildTally
    exact foldl_inv _ ([], []) (fun x b _ hx => tallyText_inv e.1 x b hx)
      ⟨List.nodup_nil, List.nodup_nil, fun a ha => ha⟩

theorem keys_mem_entry {tal : Tally} {s : List Char} (h : s ∈ keysOf tal) :
    (s, libsOf tal s) ∈ tal := by
  induction tal with
  | nil => cases h
  | cons e rest ih =>
    rcases e with ⟨s', libs⟩
    by_cases h1 : s' = s
    · subst h1
      rw [show libsOf ((s', libs) :: rest) s' = libs from by simp [libsOf]]
      exact List.mem_cons_self _ _
    · have : s ∈ keysOf rest := by
        rcases List.mem_cons.mp h with h2 | h2
        · exact absurd h2.symm h1
        · exact h2
      rw [show libsOf ((s', libs) :: rest) s = libsOf rest s from by
        simp [libsOf, h1]]
      exact List.mem_cons_of_mem _ (ih this)

theorem libsOf_of_mem : ∀ {tal : Tally}, (keysOf tal).Nodup →
    ∀ {s : List Char} {libs : List (List Char)}, (s, libs) ∈ tal →
      libsOf tal s = libs
  | [], _, _, _, h => by cases h
  | (s', libs') :: rest, hnd, s, libs, h => by
    rcases List.mem_cons.mp h with h1 | h1
    · rw [show s = s' from congrArg Prod.fst h1,
        show libs = libs' from congrArg Prod.snd h1]
      simp [libsOf]
    · have hne : s' ≠ s := by
        intro hc
        subst hc
        have hm : s' ∈ List.map Prod.fst rest :=
          List.mem_map.mpr ⟨(s', libs), h1, rfl⟩
        exact (List.nodup_cons.mp hnd).1 hm
      rw [show libsOf ((s', libs') :: rest) s = libsOf rest s from by
        simp [libsOf, hne]]
      exact libsOf_of_mem (List.nodup_cons.mp hnd).2 h1

/-! ### Membership in the kept-sentence list -/

theorem mem_foldKept (T : Nat) (s : List Char) :
    ∀ (l : Tally) (hc : List (List Char)),
      (s ∈ l.foldl (fun hc e =>
          if T ≤ e.2.length ∧ e.1 ∉ hc then hc ++ [e.1] else hc) hc) ↔
        s ∈ hc ∨ ∃ e ∈ l, e.1 = s ∧ T ≤ e.2.length
  | [], hc => by simp
  | e :: l', hc => by
    rw [List.foldl_cons, mem_foldKept T s l']
    constructor
    · rintro (h1 | h1)
      · by_cases hcond : T ≤ e.2.length ∧ e.1 ∉ hc
        · rw [if_pos hcond] at h1
          rcases List.mem_append.mp h1 with h2 | h2
          · exact Or.inl h2
          · exact Or.inr ⟨e, List.mem_cons_self e _,
              (List.mem_singleton.mp h2).symm, hcond.1⟩
        · rw [if_neg hcond] at h1
          exact Or.inl h1
      · rcases h1 with ⟨e', he', hes, hlen⟩
        exact Or.inr ⟨e', List.mem_cons_of_mem _ he', hes, hlen⟩
    · rintro (h1 | ⟨e', he', hes, hlen⟩)
      · left
        by_cases hcond : T ≤ e.2.length ∧ e.1 ∉ hc
        · rw [if_pos hcond]
          exact List.mem_append_left _ h1
        · rwa [if_neg hcond]
      · rcases List.mem_cons.mp he' with h2 | h2
        · subst h2
          by_cases hcond : T ≤ e'.2.length ∧ e'.1 ∉ hc
          · left
            rw [if_pos hcond]
            exact List.mem_append_right _ (by simp [hes])
          · left
            have hin : e'.1 ∈ hc := by
              by_cases hmem : e'.1 ∈ hc
              · exact hmem
              · exact absurd ⟨hlen, hmem⟩ hcond
            rw [if_neg hcond]
            exact hes ▸ hin
        · exact Or.inr ⟨e', h2, hes, hlen⟩

/-- Membership characterization of the kept (high-confidence) sentences:
s is kept at threshold T exactly when s is tallied and its vote count is at
least T. -/
theorem mem_keptSentences (texts : List (List Char × List Char)) (T : Nat)
    (s : List Char) :
    s ∈ keptSentences texts T ↔
      s ∈ keysOf (buildTally texts).1 ∧ T ≤ tallyVotes (buildTally texts).1 s := by
  obtain ⟨hkn, hon, hos⟩ := buildTally_inv texts
  unfold keptSentences
  rw [mem_foldKept T s]
  constructor
  · rintro (h1 | ⟨e, he, hes, hlen⟩)
    · rcases List.mem_filter.mp h1 with ⟨hord, hvote⟩
      exact ⟨hos hord, by simpa using hvote⟩
    · subst hes
      refine ⟨List.mem_map_of_mem Prod.fst he, ?_⟩
      rw [show tallyVotes (buildTally texts).1 e.1 = e.2.length from by
        unfold tallyVotes
        rw [libsOf_of_mem hkn (show (e.1, e.2) ∈ (buildTally texts).1 from he)]]
      exact hlen
  · rintro ⟨hk, hv⟩
    right
    exact ⟨(s, libsOf (buildTally texts).1 s), keys_mem_entry hk, rfl, hv⟩

/-- C5: threshold monotonicity.  For a fixed input mapping, every sentence
kept by the voter at threshold T + 1 is also kept at threshold T
(supermajority.py lines 71-81). -/
theorem keptSentences_threshold_mono (texts : List (List Char × List Char))
    (T : Nat) (s : List Char) (h : s ∈ keptSentences texts (T + 1)) :
    s ∈ keptSentences texts T := by
  rcases (mem_keptSentences texts (T + 1) s).mp h with ⟨hk, hv⟩
  exact (mem_keptSentences texts T s).mpr ⟨hk, Nat.le_of_succ_le hv⟩

/-- Witness for C5 at a concrete input: a sentence kept at threshold 2 is
kept at threshold 1. -/
theorem keptSentences_threshold_mono_witness :
    ("The witnessed sentence is long.".data) ∈ keptSentences
      [(("a".data), ("The witnessed sentence is long.".data)),
       (("b".data), ("The witnessed sentence is long.".data))] 1 :=
  keptSentences_threshold_mono _ 1 _ (by decide)

/-- C6: vote-count conservation.  (a) After the tally loop, every
sentence's vote count equals the number of distinct surviving sources
whose canonicalized text contains it; (b) in every successfully returned
VotingResult, sentences_kept is at most total_unique_sentences. -/
theorem vote_count_conservation (texts : List (List Char × List Char))
    (hnd : (texts.map Prod.fst).Nodup) :
    (∀ s, tallyVotes (buildTally texts).1 s = (sourcesContaining texts s).length) ∧
    (∀ T txt st, extract texts T = some (txt, st) →
      st.sentences_kept ≤ st.total_unique_sentences) := by
  constructor
  · intro s
    unfold tallyVotes
    rw [libsOf_buildTally texts hnd s]
  · intro T txt st hx
    obtain ⟨hkn, hon, hos⟩ := buildTally_inv texts
    have hkept : (keptSentences texts T).Nodup ∧
        keptSentences texts T ⊆ keysOf (buildTally texts).1 := by
      unfold keptSentences
      refine @foldl_inv _ _
        (fun hc => hc.Nodup ∧ hc ⊆ keysOf (buildTally texts).1) _ _ _ ?_
        ⟨hon.filter _, fun a ha => hos (List.mem_of_mem_filter ha)⟩
      intro x b hb hx1
      by_cases hcond : T ≤ b.2.length ∧ b.1 ∉ x
      · rw [if_pos hcond]
        constructor
        · rw [List.nodup_append]
          refine ⟨hx1.1, List.nodup_singleton _, ?_⟩
          intro a ha hb1
          rw [List.mem_singleton.mp hb1] at ha
          exact hcond.2 ha
        · intro a ha
          rcases List.mem_append.mp ha with h1 | h1
          · exact hx1.2 h1
          · rw [List.mem_singleton.mp h1]
            exact List.mem_map.mpr ⟨b, hb, rfl⟩
      · rwa [if_neg hcond]
    have hlen : (keptSentences texts T).length ≤ (buildTally texts).1.length := by
      have h1 := (List.subperm_of_subset hkept.1 hkept.2).length_le
      simpa [keysOf] using h1
    cases texts with
    | nil => cases hx
    | cons e rest =>
      simp only [extract] at hx
      rcases hbv : byVoteCount (buildTally (e :: rest)).1 (buildTally (e :: rest)).2
        with _ | bv
      · rw [hbv] at hx
        cases hx
      · simp only [hbv, Option.some.injEq, Prod.mk.injEq] at hx
        obtain ⟨-, hst⟩ := hx
        rw [← hst]
        exact hlen

/-- Witness for C6 at a concrete two-source input with distinct keys. -/
theorem vote_count_conservation_witness :
    (∀ s, tallyVotes (buildTally
        [(("a".data), ("This witnessed sentence is long.".data)),
         (("b".data), ("ERROR: extractor failed".data))]).1 s =
      (sourcesContaining
        [(("a".data), ("This witnessed sentence is long.".data)),
         (("b".data), ("ERROR: extractor failed".data))] s).length) ∧
    (∀ T txt st, extract
        [(("a".data), ("This witnessed sentence is long.".data)),
         (("b".data), ("ERROR: extractor failed".data))] T = some (txt, st) →
      st.sentences_kept ≤ st.total_unique_sentences) :=
  vote_count_conservation _ (by decide)

/-! ### Closed form of the reference ordering -/

theorem tallyHas_insert (tal : Tally) (n lib m : List Char) :
    tallyHas (tallyInsert tal n lib) m = (tallyHas tal m || decide (m = n)) := by
  refine Bool.eq_iff_iff.mpr ?_
  rw [tallyHas_iff_mem, keys_insert, Bool.or_eq_true, decide_eq_true_eq]
  by_cases h3 : tallyHas tal n = true
  · rw [if_pos h3, ← tallyHas_iff_mem]
    constructor
    · exact Or.inl
    · rintro (h | h)
      · exact h
      · subst h
        exact h3
  · rw [if_neg h3, List.mem_append, List.mem_singleton, ← tallyHas_iff_mem]

theorem ord_foldSentences_other (fl lib : List Char) (hne : lib ≠ fl) :
    ∀ (sents : List (List Char)) (st : Tally × List (List Char)),
      (sents.foldl (tallySentence fl lib) st).2 = st.2
  | [], _ => rfl
  | x :: xs, st => by
    rw [List.foldl_cons, ord_foldSentences_other fl lib hne xs]
    simp only [tallySentence]
    rw [if_neg (fun hc => hne hc.2)]

theorem ord_tallyText_other (fl : List Char) (st : Tally × List (List Char))
    (e : List Char × List Char) (hne : e.1 ≠ fl) :
    (tallyText fl st e).2 = st.2 := by
  unfold tallyText
  by_cases hskip : isSkippedText e.2 = true
  · rw [if_pos hskip]
  · rw [if_neg hskip]
    exact ord_foldSentences_other fl e.1 hne _ st

theorem ord_foldTexts_other (fl : List Char) :
    ∀ (l : List (List Char × List Char)) (st : Tally × List (List Char)),
      (∀ e ∈ l, e.1 ≠ fl) → (l.foldl (tallyText fl) st).2 = st.2
  | [], _, _ => rfl
  | e :: l', st, h => by
    rw [List.foldl_cons,
      ord_foldTexts_other fl l' _ (fun e' he' => h e' (List.mem_cons_of_mem _ he')),
      ord_tallyText_other fl st e (h e (List.mem_cons_self e _))]

/-- The reference-source pass appends, in first-seen order, exactly the
canonicalized sentences not already tallied. -/
theorem ord_foldSentences_ref (fl : List Char) :
    ∀ (sents : List (List Char)) (tal : Tally) (ord : List (List Char)),
      ((sents.foldl (tallySentence fl fl) (tal, ord)).2) =
        ord ++ (dedupKeepFirst (sents.map canonSentence)).filter
          (fun n => !tallyHas tal n)
  | [], tal, ord => by simp [dedupKeepFirst]
  | x :: xs, tal, ord => by
    rw [List.foldl_cons]
    have hstep : tallySentence fl fl (tal, ord) x =
        (tallyInsert tal (canonSentence x) fl,
          if tallyHas tal (canonSentence x) = false then ord ++ [canonSentence x]
          else ord) := by
      simp only [tallySentence]
      by_cases h : tallyHas tal (canonSentence x) = false
      · rw [if_pos (by exact ⟨h, trivial⟩), if_pos h]
      · rw [if_neg (fun hc => h hc.1), if_neg h]
    rw [hstep, ord_foldSentences_ref fl xs _ _]
    have hfilt : (dedupKeepFirst (xs.map canonSentence)).filter
          (fun n => !tallyHas (tallyInsert tal (canonSentence x) fl) n) =
        ((dedupKeepFirst (xs.map canonSentence)).filter
          (fun n => n ≠ canonSentence x)).filter (fun n => !tallyHas tal n) := by
      rw [List.filter_filter]
      refine List.filter_congr ?_
      intro m _
      rw [tallyHas_insert, Bool.not_or, decide_not]
    rw [List.map_cons, dedupKeepFirst, List.filter_cons]
    by_cases h : tallyHas tal (canonSentence x) = false
    · rw [if_pos h, if_pos (by rw [h]; rfl)]
      rw [hfilt, List.append_assoc]
      rfl
    · have ht : tallyHas tal (canonSentence x) = true := by
        rcases Bool.eq_false_or_eq_true (tallyHas tal (canonSentence x)) with h1 | h1
        · exact h1
        · exact absurd h1 h
      rw [if_neg h, if_neg (by rw [ht]; simp)]
      rw [hfilt]

/-- Closed form of sentence_order: it is the first-seen dedup of the first
source's canonicalized sentences (empty when the first source is skipped),
for a mapping with distinct keys. -/
theorem ord_buildTally (texts : List (List Char × List Char))
    (hnd : (texts.map Prod.fst).Nodup) :
    (buildTally texts).2 = referenceOrder texts := by
  cases texts with
  | nil => rfl
  | cons e rest =>
    rcases e with ⟨l0, t0⟩
    have hne : ∀ e' ∈ rest, e'.1 ≠ l0 := by
      intro e' he' hc
      rw [List.map_cons] at hnd
      exact (List.nodup_cons.mp hnd).1
        (hc ▸ List.mem_map.mpr ⟨e', he', rfl⟩)
    simp only [buildTally]
    rw [List.foldl_cons, ord_foldTexts_other l0 rest _ hne]
    simp only [tallyText, referenceOrder]
    by_cases hskip : isSkippedText t0 = true
    · rw [if_pos hskip, if_pos hskip]
    · rw [if_neg hskip, if_neg hskip]
      rw [show (extract_sentences t0).foldl (tallySentence l0 l0) ([], []) =
          (extract_sentences t0).foldl (tallySentence l0 l0) (([] : Tally), ([] : List (List Char)))
          from rfl]
      rw [ord_foldSentences_ref l0 (extract_sentences t0) [] []]
      rw [List.nil_append]
      exact List.filter_eq_self.mpr fun a _ => rfl

/-! ### Closed form of by_vote_count -/

theorem bv_fold_none (tal : Tally) :
    ∀ (ord : List (List Char)),
      ord.foldl (fun acc s => acc.bind fun bv =>
        bvAppend bv (tallyVotes tal s) (trunc80 s)) none = none
  | [] => rfl
  | s :: rest => by
    rw [List.foldl_cons]
    exact bv_fold_none tal rest

theorem bvAppend_four (l4 l3 l2 l1 : List (List Char)) (v : Nat) (t : List Char) :
    bvAppend [(4, l4), (3, l3), (2, l2), (1, l1)] v t =
      if v = 4 then some [(4, l4 ++ [t]), (3, l3), (2, l2), (1, l1)]
      else if v = 3 then some [(4, l4), (3, l3 ++ [t]), (2, l2), (1, l1)]
      else if v = 2 then some [(4, l4), (3, l3), (2, l2 ++ [t]), (1, l1)]
      else if v = 1 then some [(4, l4), (3, l3), (2, l2), (1, l1 ++ [t])]
      else none := by
  rcases v with _ | _ | _ | _ | _ | n <;> rfl

theorem bv_fold_some (tal : Tally) :
    ∀ (ord : List (List Char)) (l4 l3 l2 l1 : List (List Char))
      (bv : List (Nat × List (List Char))),
      ord.foldl (fun acc s => acc.bind fun b =>
          bvAppend b (tallyVotes tal s) (trunc80 s))
        (some [(4, l4), (3, l3), (2, l2), (1, l1)]) = some bv →
      bv = [(4, l4 ++ (ord.filter fun s => decide (tallyVotes tal s = 4)).map trunc80),
            (3, l3 ++ (ord.filter fun s => decide (tallyVotes tal s = 3)).map trunc80),
            (2, l2 ++ (ord.filter fun s => decide (tallyVotes tal s = 2)).map trunc80),
            (1, l1 ++ (ord.filter fun s => decide (tallyVotes tal s = 1)).map trunc80)]
  | [], l4, l3, l2, l1, bv, h => by
    simp only [List.foldl_nil, Option.some.injEq] at h
    rw [← h]
    simp
  | s :: rest, l4, l3, l2, l1, bv, h => by
    rw [List.foldl_cons,
      show ((some [(4, l4), (3, l3), (2, l2), (1, l1)]).bind fun b =>
          bvAppend b (tallyVotes tal s) (trunc80 s)) =
        bvAppend [(4, l4), (3, l3), (2, l2), (1, l1)] (tallyVotes tal s) (trunc80 s)
        from rfl,
      bvAppend_four] at h
    by_cases h4 : tallyVotes tal s = 4
    · rw [if_pos h4] at h
      rw [bv_fold_some tal rest (l4 ++ [trunc80 s]) l3 l2 l1 bv h]
      simp [List.filter_cons, h4, List.append_assoc]
    · rw [if_neg h4] at h
      by_cases h3 : tallyVotes tal s = 3
      · rw [if_pos h3] at h
        rw [bv_fold_some tal rest l4 (l3 ++ [trunc80 s]) l2 l1 bv h]
        simp [List.filter_cons, h3, List.append_assoc]
      · rw [if_neg h3] at h
        by_cases h2 : tallyVotes tal s = 2
        · rw [if_pos h2] at h
          rw [bv_fold_some tal rest l4 l3 (l2 ++ [trunc80 s]) l1 bv h]
          simp [List.filter_cons, h2, List.append_assoc]
        · rw [if_neg h2] at h
          by_cases h1 : tallyVotes tal s = 1
          · rw [if_pos h1] at h
            rw [bv_fold_some tal rest l4 l3 l2 (l1 ++ [trunc80 s]) bv h]
            simp [List.filter_cons, h1, List.append_assoc]
          · rw [if_neg h1, bv_fold_none tal rest] at h
            cases h

/-- Spec side (amended claim): what by_vote_count holds at key k: the
reference-ordered sentences whose vote count is k, in reference order,
each truncated to 80 characters with "..." appended when longer. -/
def claimedBucket (texts : List (List Char × List Char)) (k : Nat) :
    List (List Char) :=
  ((referenceOrder texts).filter fun s =>
    decide ((sourcesContaining texts s).length = k)).map trunc80

/-- C4 (amended): for a mapping with distinct keys, the by_vote_count of a
successful run has exactly the fixed keys 4, 3, 2, 1 (not the vote counts
1..N), and the value at key k lists precisely the reference (first) source's
canonicalized sentences whose vote count is k, in first-seen order,
truncated to 80 characters; sentences produced only by non-reference
sources are absent even when below the threshold. -/
theorem by_vote_count_characterization (texts : List (List Char × List Char))
    (hnd : (texts.map Prod.fst).Nodup) (T : Nat) (txt : List Char)
    (st : VotingStats) (hx : extract texts T = some (txt, st)) :
    st.by_vote_count = [(4, claimedBucket texts 4), (3, claimedBucket texts 3),
      (2, claimedBucket texts 2), (1, claimedBucket texts 1)] := by
  cases texts with
  | nil => cases hx
  | cons e rest =>
    simp only [extract] at hx
    rcases hbv : byVoteCount (buildTally (e :: rest)).1 (buildTally (e :: rest)).2
      with _ | bv
    · rw [hbv] at hx
      cases hx
    · simp only [hbv, Option.some.injEq, Prod.mk.injEq] at hx
      obtain ⟨-, hst⟩ := hx
      rw [← hst]
      show bv = _
      rw [show byVoteCount (buildTally (e :: rest)).1 (buildTally (e :: rest)).2 =
          ((buildTally (e :: rest)).2).foldl (fun acc s => acc.bind fun b =>
            bvAppend b (tallyVotes (buildTally (e :: rest)).1 s) (trunc80 s))
            (some [(4, []), (3, []), (2, []), (1, [])]) from rfl] at hbv
      rw [bv_fold_some _ _ [] [] [] [] bv hbv]
      have hordeq := ord_buildTally (e :: rest) hnd
      have hfk : ∀ k, (((buildTally (e :: rest)).2).filter fun s =>
          decide (tallyVotes (buildTally (e :: rest)).1 s = k)).map trunc80 =
          claimedBucket (e :: rest) k := by
        intro k
        unfold claimedBucket
        rw [hordeq]
        congr 1
        refine List.filter_congr ?_
        intro s _
        have hv : tallyVotes (buildTally (e :: rest)).1 s =
            (sourcesContaining (e :: rest) s).length := by
          unfold tallyVotes
          rw [libsOf_buildTally (e :: rest) hnd s]
        rw [hv]
      simp only [List.nil_append]
      rw [hfk 4, hfk 3, hfk 2, hfk 1]

def cexLong : List Char :=
  ("This extremely long sentence continues onward with many additional words to exceed the cap.".data)

def cexA : List Char :=
  ("First source sentence number one is right here.".data) ++ (' ' :: cexLong)

def cexB : List Char := "Completely different sentence from source b.".data

def cexTexts : List (List Char × List Char) :=
  [(("a".data), cexA), (("b".data), cexB)]

set_option maxRecDepth 4000 in
/-- C4 (counterexample): on a two-source input the claim fails in three
ways.  The key list of by_vote_count is the fixed [4, 3, 2, 1], although
the claim demands exactly the vote counts 1..N and here N = 2, so 4 is a
key outside 1..N.  The second source's sentence has vote count 1 yet does
not appear under key 1, although the claim says every distinct sentence is
listed under its vote count.  And the stored entry for a 91-character
sentence is its 80-character truncation plus "...", not the sentence the
claim describes. -/
theorem by_vote_count_claim_counterexample :
    ((extract cexTexts 2).map fun r => r.2.by_vote_count) =
      some [(4, []), (3, []), (2, []),
        (1, [("First source sentence number one is right here.".data),
             trunc80 cexLong])] ∧
    (survivingSources cexTexts).length = 2 ∧
    (4 : Nat) ∉ [1, 2] ∧
    cexB ∈ canonSentences cexB ∧
    (sourcesContaining cexTexts cexB).length = 1 ∧
    cexB ∉ [("First source sentence number one is right here.".data),
            trunc80 cexLong] ∧
    80 < cexLong.length ∧
    trunc80 cexLong ≠ cexLong := by decide

/-- Witness for the amended C4 at a concrete two-source input. -/
theorem by_vote_count_characterization_witness :
    ({ total_unique_sentences := 1,
       by_vote_count := [(4, []), (3, []),
         (2, [("Witness sentence number one is long.".data)]), (1, [])],
       sentences_kept := 1, threshold := 2 } : VotingStats).by_vote_count =
      [(4, claimedBucket
          [(("a".data), ("Witness sentence number one is long.".data)),
           (("b".data), ("Witness sentence number one is long.".data))] 4),
       (3, claimedBucket
          [(("a".data), ("Witness sentence number one is long.".data)),
           (("b".data), ("Witness sentence number one is long.".data))] 3),
       (2, claimedBucket
          [(("a".data), ("Witness sentence number one is long.".data)),
           (("b".data), ("Witness sentence number one is long.".data))] 2),
       (1, claimedBucket
          [(("a".data), ("Witness sentence number one is long.".data)),
           (("b".data), ("Witness sentence number one is long.".data))] 1)] :=
  by_vote_count_characterization
    [(("a".data), ("Witness sentence number one is long.".data)),
     (("b".data), ("Witness sentence number one is long.".data))]
    (by decide) 2 ("Witness sentence number one is long.".data) _ (by decide)

/-- C10 (amended): kept sentences are joined verbatim with ". ".  When the
first kept sentence itself ends in '.', the reconstructed (hashed) text
starts with that sentence followed by the separator, so the doubled
sequence ".." appears at the boundary; a kept sentence that does not end
in terminal punctuation (possible for a source's final segment) produces
no such doubling, contrary to the original claim's "at each boundary". -/
theorem reconstructed_join_doubles_period (texts : List (List Char × List Char))
    (T : Nat) (a b : List Char) (rest : List (List Char)) (txt : List Char)
    (st : VotingStats) (hk : keptSentences texts T = a :: b :: rest)
    (ha : a.getLast? = some '.')
    (hx : extract texts T = some (txt, st)) :
    txt.take (a.length + 2) = a ++ ('.' :: ' ' :: []) ∧
    (txt.drop (a.length - 1)).take 3 = ('.' :: '.' :: ' ' :: []) := by
  have hane : a ≠ [] := by
    intro h
    rw [h] at ha
    cases ha
  have htxt : ∃ z, txt = a ++ '.' :: ' ' :: z := by
    cases texts with
    | nil => cases hx
    | cons e r =>
      simp only [extract] at hx
      rcases hbv : byVoteCount (buildTally (e :: r)).1 (buildTally (e :: r)).2
        with _ | bv
      · rw [hbv] at hx
        cases hx
      · simp only [hbv, Option.some.injEq, Prod.mk.injEq] at hx
        obtain ⟨htxt1, -⟩ := hx
        rw [← htxt1, hk]
        by_cases hcond : joinDotSpace (a :: b :: rest) ≠ [] ∧
            (joinDotSpace (a :: b :: rest)).getLast? ≠ some '.'
        · refine ⟨joinDotSpace (b :: rest) ++ ['.'], ?_⟩
          rw [if_pos hcond]
          rw [show joinDotSpace (a :: b :: rest) =
            a ++ '.' :: ' ' :: joinDotSpace (b :: rest) from rfl]
          rw [List.append_assoc]
          rfl
        · refine ⟨joinDotSpace (b :: rest), ?_⟩
          rw [if_neg hcond]
          rfl
  obtain ⟨z, hz⟩ := htxt
  subst hz
  have hsplit : a ++ '.' :: ' ' :: z = (a ++ ('.' :: ' ' :: [])) ++ z := by
    rw [List.append_assoc]
    rfl
  constructor
  · rw [hsplit]
    exact List.take_left' (by rw [List.length_append]; rfl)
  · have hdrop : a.dropLast ++ [a.getLast hane] = a := List.dropLast_append_getLast hane
    have hlast : a.getLast hane = '.' := by
      have h1 := List.getLast?_eq_getLast a hane
      rw [h1] at ha
      exact (Option.some.injEq _ _ ▸ ha :)
    rw [← hdrop, hlast]
    rw [List.append_assoc]
    have hlen : (a.dropLast ++ ['.'] : List Char).length - 1 = a.dropLast.length := by
      rw [List.length_append]
      simp
    rw [hlen]
    rw [show a.dropLast ++ (['.'] ++ '.' :: ' ' :: z) =
      a.dropLast ++ ('.' :: '.' :: ' ' :: z) from rfl]
    rw [List.drop_left]
    rfl

def c10A : List Char := "A long fragment without terminal punctuation here".data

def c10B : List Char := "This proper sentence ends with a period.".data

def c10Texts : List (List Char × List Char) :=
  [(("a".data), c10A), (("b".data), c10B)]

/-- C10 (counterexample): a kept, non-final sentence need not end in
terminal punctuation.  Here the first kept sentence is a source's final
segment ending in 'e'; the reconstruction joins it with ". " and the
boundary shows "e. ", not a terminal-punctuation character followed by
the separator, refuting the claim's "at each boundary". -/
theorem kept_punct_claim_counterexample :
    keptSentences c10Texts 1 = [c10A, c10B] ∧
    c10A.getLast? = some 'e' ∧
    isTermPunct 'e' = false ∧
    ((extract c10Texts 1).map Prod.fst) = some (c10A ++ '.' :: ' ' :: c10B) := by
  decide

/-- Witness for the amended C10: two kept sentences, the first ending in
'.', produce ".." in the reconstructed text. -/
theorem reconstructed_join_doubles_period_witness :
    (("First witness sentence here one.. Second witness sentence two.".data).take
        (("First witness sentence here one.".data).length + 2) =
      ("First witness sentence here one.".data) ++ ('.' :: ' ' :: [])) ∧
    ((("First witness sentence here one.. Second witness sentence two.".data).drop
        (("First witness sentence here one.".data).length - 1)).take 3 =
      ('.' :: '.' :: ' ' :: [])) :=
  reconstructed_join_doubles_period
    [(("a".data), ("First witness sentence here one. Second witness sentence two.".data)),
     (("b".data), ("First witness sentence here one. Second witness sentence two.".data))]
    2 ("First witness sentence here one.".data)
    ("Second witness sentence two.".data) []
    ("First witness sentence here one.. Second witness sentence two.".data)
    { total_unique_sentences := 2,
      by_vote_count := [(4, []), (3, []),
        (2, [("First witness sentence here one.".data),
             ("Second witness sentence two.".data)]), (1, [])],
      sentences_kept := 2, threshold := 2 }
    (by decide) (by decide) (by decide)

/-! ## Layer 2: extractor-specific quirks (quirks.py, extractor_quirks) -/

/-- Case-insensitive character comparison (re.IGNORECASE, ASCII folding). -/
def charCI (a b : Char) : Bool := a.toLower = b.toLower

/-- Consume a caseless literal pattern from the front of s; some rest on a
match, none otherwise. -/
def dropCI : List Char → List Char → Option (List Char)
  | [], s => some s
  | _ :: _, [] => none
  | p :: ps, c :: cs => if charCI p c then dropCI ps cs else none

theorem dropCI_length : ∀ {pat s r : List Char}, dropCI pat s = some r →
    r.length + pat.length = s.length
  | [], s, r, h => by
    simp only [dropCI, Option.some.injEq] at h
    rw [h]
    simp
  | p :: ps, [], r, h => by cases h
  | p :: ps, c :: cs, r, h => by
    rw [dropCI] at h
    by_cases hc : charCI p c = true
    · rw [if_pos hc] at h
      have := dropCI_length h
      simp only [List.length_cons]
      omega
    · rw [if_neg hc] at h
      cases h

/-- Ordered alternation over caseless literals: the first that matches. -/
def altCI : List (List Char) → List Char → Option (List Char)
  | [], _ => none
  | p :: ps, s =>
    match dropCI p s with
    | some r => some r
    | none => altCI ps s

/-- Alternation where the regex also requires a literal ')' right after the
matched alternative (with backtracking to later alternatives when the ')'
is missing), as in goose's photo-credit pattern. -/
def altCIThen : List (List Char) → List Char → Option (List Char)
  | [], _ => none
  | p :: ps, s =>
    match dropCI p s with
    | some (')' :: r2) => some r2
    | _ => altCIThen ps s

theorem altCIThen_length : ∀ {pats : List (List Char)} {s r : List Char},
    altCIThen pats s = some r → r.length < s.length
  | [], _, _, h => by cases h
  | p :: ps, s, r, h => by
    rw [altCIThen] at h
    split at h
    · rename_i r2 heq
      simp only [Option.some.injEq] at h
      subst h
      have := dropCI_length heq
      simp only [List.length_cons] at this
      omega
    · exact altCIThen_length h

/-- The timezone alternation ET|EST|PST|CST of the newspaper pattern. -/
def tzAlt (s : List Char) : Option (List Char) :=
  altCI [("ET".data), ("EST".data), ("PST".data), ("CST".data)] s

/-- The lazy .*? scan (a dot never matches a newline) until the timezone
alternation matches, in the backtracking order of the regex engine. -/
def scanTZ : List Char → Option (List Char)
  | [] => none
  | c :: cs =>
    match tzAlt (c :: cs) with
    | some r => some r
    | none => if c = '\n' then none else scanTZ cs

def monthAlt (s : List Char) : Option (List Char) :=
  altCI (["Jan", "Feb", "Mar", "Apr", "May", "Jun", "Jul", "Aug", "Sep",
    "Oct", "Nov", "Dec"].map String.data) s

def isAsciiDigit (c : Char) : Bool := 48 ≤ c.toNat && c.toNat ≤ 57

/-- \s+ : at least one whitespace character, consumed greedily.  Greedy
consumption is deterministic here because every continuation of the
pattern starts with a non-whitespace requirement. -/
def dropSpaces1 : List Char → Option (List Char)
  | c :: cs => if isPySpace c then some (lstrip cs) else none
  | [] => none

def drop4Digits (s : List Char) : Option (List Char) :=
  match s with
  | d1 :: d2 :: d3 :: d4 :: r =>
    if isAsciiDigit d1 && isAsciiDigit d2 && isAsciiDigit d3 && isAsciiDigit d4
    then some r else none
  | _ => none

/-- Anchored match of newspaper's date-header pattern (quirks.py lines
67-70): ^(month)\.?\s+\d{1,2},\s+\d{4}.*?(ET|EST|PST|CST)\s* with
IGNORECASE; returns the remainder after the consumed prefix.  The optional
dot and the greedy \d{1,2} are deterministic: when their greedy choice
fails the overall match, every backtracked choice places a character of the
wrong class in front of the next mandatory literal, so it fails too. -/
def newspaperMatch (t : List Char) : Option (List Char) :=
  (monthAlt t).bind fun s1 =>
  (dropSpaces1 (match s1 with
    | '.' :: r => r
    | _ => s1)).bind fun s3 =>
  (match s3 with
   | d1 :: rest =>
     if isAsciiDigit d1 then
       match rest with
       | d2 :: rest2 => if isAsciiDigit d2 then some rest2 else some rest
       | [] => some ([] : List Char)
     else none
   | [] => none).bind fun s4 =>
  (match s4 with
   | ',' :: r => some r
   | _ => none).bind fun s5 =>
  (dropSpaces1 s5).bind fun s6 =>
  (drop4Digits s6).bind fun s7 =>
  (scanTZ s7).map fun s8 => lstrip s8

/-- The newspaper branch (quirks.py lines 65-70): the pattern is anchored
with ^ and re.sub is not in MULTILINE mode, so at most one substitution
happens, at the very start of the text. -/
def newspaperFix (t : List Char) : List Char :=
  match newspaperMatch t with
  | some rest => rest
  | none => t

/-- re.sub(r'"\s+', '"', text) (quirks.py line 74): delete every
whitespace run that immediately follows '"'; afterQuote tracks whether the
previous character was '"' or a deleted character of the current run. -/
def dsaqAux : List Char → Bool → List Char
  | [], _ => []
  | c :: cs, afterQuote =>
    if isPySpace c && afterQuote then dsaqAux cs true
    else c :: dsaqAux cs (c = '"')

def delSpaceAfterQuote (t : List Char) : List Char := dsaqAux t false

/-- The readability branch (quirks.py lines 72-75): collapse whitespace
after '"', then whitespace before '"'. -/
def readabilityFix (t : List Char) : List Char :=
  delSpaceBefore (fun c => c = '"') (delSpaceAfterQuote t)

example : readabilityFix ("He said \" hello \" to me".data) =
    ("He said\"hello\"to me".data) := by decide

/-- The lazy inner scan of goose's photo-credit pattern
\(.*?(?:Getty Images|Reuters|AFP|AP|Bloomberg)\) (quirks.py lines 79-82),
starting right after the '(': at each position try the alternatives in
order, each followed by ')'; otherwise consume one non-newline character. -/
def gooseScanInner : List Char → Option (List Char)
  | [] => none
  | c :: cs =>
    match altCIThen (["Getty Images", "Reuters", "AFP", "AP",
        "Bloomberg"].map String.data) (c :: cs) with
    | some r => some r
    | none => if c = '\n' then none else gooseScanInner cs

theorem gooseScanInner_length : ∀ {s r : List Char},
    gooseScanInner s = some r → r.length < s.length
  | [], r, h => by cases h
  | c :: cs, r, h => by
    rw [gooseScanInner] at h
    rcases ha : altCIThen (["Getty Images", "Reuters", "AFP", "AP",
        "Bloomberg"].map String.data) (c :: cs) with _ | d
    · rw [ha] at h
      by_cases hc : c = '\n'
      · rw [if_pos hc] at h
        cases h
      · rw [if_neg hc] at h
        have := gooseScanInner_length h
        simp only [List.length_cons]
        omega
    · rw [ha] at h
      simp only [Option.some.injEq] at h
      subst h
      exact altCIThen_length ha

/-- The goose branch (quirks.py lines 77-82): global re.sub deleting every
photo-credit parenthetical; scanning resumes after each deleted match. -/
def gooseSubAll : List Char → List Char
  | [] => []
  | c :: cs =>
    if c = '(' then
      match hm : gooseScanInner cs with
      | some rest => gooseSubAll rest
      | none => c :: gooseSubAll cs
    else c :: gooseSubAll cs
termination_by s => s.length
decreasing_by
  · simp only [List.length_cons]
    have := gooseScanInner_length hm
    omega
  · simp only [List.length_cons]
    omega
  · simp only [List.length_cons]
    omega

def gooseFix (t : List Char) : List Char := gooseSubAll t

/-- QuirksProcessor.extractor_quirks (quirks.py lines 54-84), layer 2 of
the normalizer: the three known extractors get their regex fixes; every
branch, including the default for unknown extractors, ends in Python's
return text.strip(). -/
def extractor_quirks (text : List Char) (extractor : List Char) : List Char :=
  if extractor = ("newspaper".data) then pyStrip (newspaperFix text)
  else if extractor = ("readability".data) then pyStrip (readabilityFix text)
  else if extractor = ("goose".data) then pyStrip (gooseFix text)
  else pyStrip text

/-- C9 (counterexample): for the unknown source id "trafilatura" (a real
pipeline extractor with no branch in extractor_quirks), the text is not
passed through unchanged: the final return text.strip() removes its
leading and trailing whitespace. -/
theorem extractor_quirks_unknown_claim_counterexample :
    extractor_quirks (' ' :: 'a' :: ' ' :: []) ("trafilatura".data) =
      ('a' :: []) ∧
    (' ' :: 'a' :: ' ' :: []) ≠ ('a' :: []) := by decide

/-- C9 (amended): for every source id other than newspaper, readability
and goose, extractor_quirks returns the text stripped of leading and
trailing whitespace (Python text.strip()); in particular a text without
boundary whitespace passes through unchanged. -/
theorem extractor_quirks_unknown_strips (t e : List Char)
    (h1 : e ≠ ("newspaper".data)) (h2 : e ≠ ("readability".data))
    (h3 : e ≠ ("goose".data)) :
    extractor_quirks t e = pyStrip t := by
  unfold extractor_quirks
  rw [if_neg h1, if_neg h2, if_neg h3]

/-- Witness for the amended C9 at a concrete input. -/
theorem extractor_quirks_unknown_strips_witness :
    extractor_quirks (' ' :: 'a' :: ' ' :: []) ("trafilatura".data) =
      pyStrip (' ' :: 'a' :: ' ' :: []) :=
  extractor_quirks_unknown_strips _ _ (by decide) (by decide) (by decide)

/-! ## Layer 3: site-specific quirks (quirks.py, site_quirks)

The five Fox News patterns are modelled as decision procedures over all
backtracking splits of their character classes; for each pattern the
matched span is independent of the split (documented per pattern), so the
substitution is determined by the leftmost matching start position. -/

/-- ^NEW You can now listen to Fox News articles!?\s* (quirks.py line 99),
anchored, at most one substitution. -/
def fox1 (t : List Char) : List Char :=
  match dropCI ("NEW You can now listen to Fox News articles".data) t with
  | some r =>
    lstrip (match r with
      | '!' :: rr => rr
      | _ => r)
  | none => t

/-- One match attempt of CLICK HERE TO (?:GET|DOWNLOAD) (?:THE )?FOX NEWS
APP\s* (quirks.py line 100) at the current position, with the optional
"THE " backtracked when the rest fails. -/
def fox2MatchAt (s : List Char) : Option (List Char) :=
  match dropCI ("CLICK HERE TO ".data) s with
  | none => none
  | some r1 =>
    match altCI [("GET".data), ("DOWNLOAD".data)] r1 with
    | none => none
    | some (' ' :: r3) =>
      match dropCI ("THE ".data) r3 with
      | some rr =>
        match dropCI ("FOX NEWS APP".data) rr with
        | some r6 => some (lstrip r6)
        | none => (dropCI ("FOX NEWS APP".data) r3).map lstrip
      | none => (dropCI ("FOX NEWS APP".data) r3).map lstrip
    | some _ => none

theorem fox2MatchAt_length {s r : List Char} (h : fox2MatchAt s = some r) :
    r.length < s.length := by
  have hls : ∀ {x : List Char}, (lstrip x).length ≤ x.length := by
    intro x
    exact List.Sublist.length_le (List.dropWhile_sublist _)
  have haltle : ∀ {pats : List (List Char)} {x y : List Char},
      altCI pats x = some y → y.length ≤ x.length := by
    intro pats
    induction pats with
    | nil => intro x y h1; cases h1
    | cons p ps ih =>
      intro x y h1
      rw [altCI] at h1
      split at h1
      · rename_i heq
        simp only [Option.some.injEq] at h1
        subst h1
        have := dropCI_length heq
        omega
      · exact ih h1
  unfold fox2MatchAt at h
  split at h
  · cases h
  · rename_i r1 h1
    have hr1 : r1.length + 14 = s.length := by
      have := dropCI_length h1
      simpa using this
    split at h
    · cases h
    · rename_i r2 r3 h2
      have hr3 : r3.length < r1.length := by
        have := haltle h2
        simp only [List.length_cons] at this
        omega
      split at h
      · rename_i rr h3
        have hrr : rr.length ≤ r3.length := by
          have := dropCI_length h3
          omega
        split at h
        · rename_i r6 h4
          simp only [Option.some.injEq] at h
          subst h
          have := dropCI_length h4
          have := @hls r6
          omega
        · rcases h5 : dropCI ("FOX NEWS APP".data) r3 with _ | r7
          · rw [h5] at h
            cases h
          · rw [h5] at h
            simp only [Option.map_some', Option.some.injEq] at h
            subst h
            have := dropCI_length h5
            have := @hls r7
            omega
      · rcases h5 : dropCI ("FOX NEWS APP".data) r3 with _ | r7
        · rw [h5] at h
          cases h
        · rw [h5] at h
          simp only [Option.map_some', Option.some.injEq] at h
          subst h
          have := dropCI_length h5
          have := @hls r7
          omega
    · cases h

/-- Global re.sub for the CLICK HERE pattern, resuming after each match. -/
def fox2 : List Char → List Char
  | [] => []
  | c :: cs =>
    match hm : fox2MatchAt (c :: cs) with
    | some rest => fox2 rest
    | none => c :: fox2 cs
termination_by s => s.length
decreasing_by
  · exact fox2MatchAt_length hm
  · simp only [List.length_cons]
    omega

/-- ASCII model of the regex class \w (see the file header note). -/
def isPyWord (c : Char) : Bool := isAsciiDigit c || isAsciiAlpha c || c = '_'

/-- \.?\s*$ where the greedy \s* runs to the absolute end of the string. -/
def tailDotSpaces (r : List Char) : Bool :=
  r.all isPySpace ||
    (match r with
     | '.' :: rr => rr.all isPySpace
     | _ => false)

/-- Match of Fox News['\s]+[\w\s]+contributed to this report\.?\s*$
(quirks.py line 101) starting at the head of s and reaching the end of the
string; the two character-class runs are searched over every split. -/
def fox3MatchAt (s : List Char) : Bool :=
  match dropCI ("Fox News".data) s with
  | none => false
  | some r =>
    (List.range r.length).any fun b =>
      (r.take (b + 1)).all (fun c => c = '\x27' || isPySpace c) &&
        ((List.range (r.length - (b + 1))).any fun cz =>
          ((r.drop (b + 1)).take (cz + 1)).all
              (fun c => isPyWord c || isPySpace c) &&
            (match dropCI ("contributed to this report".data)
                ((r.drop (b + 1)).drop (cz + 1)) with
             | some r3 => tailDotSpaces r3
             | none => false))

/-- The contributed-report pattern always matches through to the string
end, so the substitution deletes from the leftmost matching position on. -/
def fox3 (t : List Char) : List Char :=
  match (List.range (t.length + 1)).find? (fun i => fox3MatchAt (t.drop i)) with
  | some i => t.take i
  | none => t

/-- .*?$ reachability for a pattern ending in a lazy tail: a $ position
(string end, or just before a final newline) is reachable iff every
newline of the remainder is its final character. -/
def lazyTailOk (r : List Char) : Bool := r.dropLast.all (fun c => c ≠ '\n')

/-- Match of [\w\s]+ is a (?:reporter|correspondent|anchor) with Fox News
Digital.*?$ (quirks.py line 102) starting at the head of s. -/
def fox4MatchAt (s : List Char) : Bool :=
  (List.range s.length).any fun cz =>
    (s.take (cz + 1)).all (fun c => isPyWord c || isPySpace c) &&
      (match dropCI (" is a ".data) (s.drop (cz + 1)) with
       | none => false
       | some r2 =>
         match altCI [("reporter".data), ("correspondent".data),
             ("anchor".data)] r2 with
         | none => false
         | some r3 =>
           match dropCI (" with Fox News Digital".data) r3 with
           | none => false
           | some r4 => lazyTailOk r4)

/-- Every viable split of the staff-bio pattern ends at the same $
position (string end, or just before a final newline, which the deletion
then keeps). -/
def fox4 (t : List Char) : List Char :=
  match (List.range (t.length + 1)).find? (fun i => fox4MatchAt (t.drop i)) with
  | some i => t.take i ++ (if t.getLast? = some '\n' then ['\n'] else [])
  | none => t

/-- Match of Send tips to [\w.@]+,?\s*or on (?:X|Twitter):\s*@[\w_]+\.?\s*$
(quirks.py line 103) starting at the head of s.  The final [\w_]+ run must
be maximal: a shorter run leaves a word character in front of \.?\s*$,
which cannot match. -/
def fox5MatchAt (s : List Char) : Bool :=
  match dropCI ("Send tips to ".data) s with
  | none => false
  | some r =>
    (List.range r.length).any fun k =>
      (r.take (k + 1)).all (fun c => isPyWord c || c = '.' || c = '@') &&
        (match dropCI ("or on ".data)
            (lstrip (match r.drop (k + 1) with
              | ',' :: rr => rr
              | rr => rr)) with
         | none => false
         | some r4 =>
           match altCI [("X".data), ("Twitter".data)] r4 with
           | some (':' :: r6) =>
             (match lstrip r6 with
              | '@' :: r7 =>
                decide (1 ≤ (r7.takeWhile isPyWord).length) &&
                  tailDotSpaces (r7.drop (r7.takeWhile isPyWord).length)
              | _ => false)
           | _ => false)

def fox5 (t : List Char) : List Char :=
  match (List.range (t.length + 1)).find? (fun i => fox5MatchAt (t.drop i)) with
  | some i => t.take i
  | none => t

/-- url.lower() (ASCII folding). -/
def toLowerList (s : List Char) : List Char := s.map Char.toLower

/-- Python's substring containment, the in operator on str. -/
def containsSub (needle : List Char) : List Char → Bool
  | [] => needle.isEmpty
  | c :: cs => decide ((c :: cs).take needle.length = needle) || containsSub needle cs

/-- QuirksProcessor.site_quirks (quirks.py lines 86-110), layer 3 of the
normalizer: Fox News boilerplate removal, CNN live-blog veto (none), and
the final return text.strip() if text else text. -/
def site_quirks (text : List Char) (url : List Char) : Option (List Char) :=
  if containsSub ("foxnews.com".data) (toLowerList url) then
    let t5 := fox5 (fox4 (fox3 (fox2 (fox1 text))))
    if t5 = [] then some t5 else some (pyStrip t5)
  else if containsSub ("cnn.com".data) (toLowerList url) then
    if containsSub ("live-news".data) url || containsSub ("live-updates".data) url
    then none
    else if text = [] then some text else some (pyStrip text)
  else if text = [] then some text else some (pyStrip text)

/-- QuirksProcessor.process_all_layers (quirks.py lines 112-121): empty or
"ERROR:"-prefixed input is discarded (None) before layer 1 runs; otherwise
the three layers apply in order. -/
def process_all_layers (text : List Char) (extractor : List Char)
    (url : List Char) : Option (List Char) :=
  if text = [] ∨ text.take 6 = ("ERROR:".data) then none
  else site_quirks (extractor_quirks (base_quirks text) extractor) url

example : site_quirks ("Live blog content".data)
    ("https://www.cnn.com/live-news/updates".data) = none := by decide

example : process_all_layers ("One short fragment".data) ("trafilatura".data)
    ("https://example.com/a".data) = some ("One short fragment".data) := by decide

/-! ## Fingerprint orchestration (fingerprinter.py, ArticleFingerprinter)

External collaborators are parameters of the model, matching the spec's
boundary: the hash parameter stands for hashlib.sha256(...).hexdigest()
(a pure function of the text), the ratioFn parameter for
difflib.SequenceMatcher(None, a, b) similarity (float arithmetic is
modelled in ℚ; no claim concerns those values).  Metadata arrives
pre-extracted (metadata.py parses HTML, an external concern); Python's
f-string renders a None publish_date as the string "None". -/

structure Metadata where
  canonical_url : List Char
  publish_date : Option (List Char)
  title : List Char
deriving DecidableEq

def renderOptStr : Option (List Char) → List Char
  | none => "None".data
  | some s => s

/-- One entry of pairwise_similarities (fingerprinter.py lines 89-99). -/
structure SimEntry where
  lib1 : List Char
  lib2 : List Char
  similarity : ℚ
  wc1 : Nat
  wc2 : Nat
deriving DecidableEq

/-- len(text.split()): the number of maximal non-whitespace runs. -/
def wcAux : List Char → Bool → Nat
  | [], _ => 0
  | c :: cs, prevSpace =>
    (if !isPySpace c && prevSpace then 1 else 0) + wcAux cs (isPySpace c)

def wordCount (t : List Char) : Nat := wcAux t true

/-- The nested loop over distinct index pairs i < j of the processed
mapping (fingerprinter.py lines 89-99). -/
def pairSims (ratioFn : List Char → List Char → ℚ) :
    List (List Char × List Char) → List SimEntry
  | [] => []
  | (l1, t1) :: rest =>
    rest.map (fun e => ⟨l1, e.1, ratioFn t1 e.2, wordCount t1, wordCount e.2⟩) ++
      pairSims ratioFn rest

/-- The quirks-processing loop (fingerprinter.py lines 63-67): an entry
survives when process_all_layers returns a truthy result, i.e. neither
None nor the empty string. -/
def processedOf (raw : List (List Char × List Char)) (url : List Char) :
    List (List Char × List Char) :=
  raw.filterMap fun e =>
    match process_all_layers e.2 e.1 url with
    | none => none
    | some r => if r = [] then none else some (e.1, r)

inductive Confidence where
  | very_high
  | high
  | medium
  | low
deriving DecidableEq

/-- The confidence step function (fingerprinter.py lines 104-111); the
float literals 0.95, 0.90, 0.80 are the rationals below (mkRat 95 100 is
95/100). -/
def confidenceOf (avg : ℚ) : Confidence :=
  if mkRat 95 100 < avg then Confidence.very_high
  else if mkRat 90 100 < avg then Confidence.high
  else if mkRat 80 100 < avg then Confidence.medium
  else Confidence.low

structure FingerprintResult where
  article_id : List Char
  content_hash : List Char
  confidence : Confidence
  agreement_score : ℚ
  word_count : Nat
  extractors_attempted : Nat
  extractors_successful : Nat
  pairwise_similarities : List SimEntry
  voting_stats : VotingStats
  supermajority_text : List Char
deriving DecidableEq

/-- ArticleFingerprinter.fingerprint (fingerprinter.py lines 36-155),
restricted to the consensus core: raw extraction and metadata parsing are
external inputs; the hash-group diagnostics, previews and timing fields
are omitted (no claim concerns them).  Returns none when
SupermajorityExtractor.extract raises (it does on an empty processed
mapping, see C1).  article_id (lines 113-115) hashes
canonical_url|publish_date|title and keeps the first 16 hex characters. -/
def fingerprint_core (hash : List Char → List Char)
    (ratioFn : List Char → List Char → ℚ) (md : Metadata)
    (raw : List (List Char × List Char)) (url : List Char) :
    Option FingerprintResult :=
  let processed := processedOf raw url
  let T := if 3 ≤ processed.length then 3 else 2
  match extract processed T with
  | none => none
  | some (supermajText, vstats) =>
    let sims := pairSims ratioFn processed
    let avg : ℚ :=
      if sims.length = 0 then 0
      else (sims.map SimEntry.similarity).sum / (sims.length : ℚ)
    some {
      article_id := (hash (md.canonical_url ++ '|' ::
        (renderOptStr md.publish_date ++ '|' :: md.title))).take 16
      content_hash := hash supermajText
      confidence := confidenceOf avg
      agreement_score := avg
      word_count := wordCount supermajText
      extractors_attempted := raw.length
      extractors_successful := processed.length
      pairwise_similarities := sims
      voting_stats := vstats
      supermajority_text := supermajText }

/-! ### Helper lemmas for the pipeline claims -/

theorem nodup_key_unique : ∀ {raw : List (List Char × List Char)},
    (raw.map Prod.fst).Nodup → ∀ {lib t t' : List Char},
    (lib, t) ∈ raw → (lib, t') ∈ raw → t = t'
  | [], _, _, _, _, h1, _ => by cases h1
  | e :: rest, hnd, lib, t, t', h1, h2 => by
    have hnd' : (rest.map Prod.fst).Nodup := by
      rw [List.map_cons] at hnd
      exact hnd.of_cons
    have hnotin : e.1 ∉ rest.map Prod.fst := by
      rw [List.map_cons] at hnd
      exact (List.nodup_cons.mp hnd).1
    rcases List.mem_cons.mp h1 with ha | ha
    · rcases List.mem_cons.mp h2 with hb | hb
      · rw [← ha] at hb
        exact (congrArg Prod.snd hb).symm
      · exfalso
        refine hnotin ?_
        rw [← ha]
        exact List.mem_map.mpr ⟨(lib, t'), hb, rfl⟩
    · rcases List.mem_cons.mp h2 with hb | hb
      · exfalso
        refine hnotin ?_
        rw [← hb]
        exact List.mem_map.mpr ⟨(lib, t), ha, rfl⟩
      · exact nodup_key_unique hnd' ha hb

theorem processedOf_keys_sublist (url : List Char) :
    ∀ (raw : List (List Char × List Char)),
      List.Sublist ((processedOf raw url).map Prod.fst) (raw.map Prod.fst)
  | [] => List.Sublist.refl []
  | e :: rest => by
    unfold processedOf
    rw [List.filterMap_cons]
    rcases hp : process_all_layers e.2 e.1 url with _ | r
    · simp only []
      exact (processedOf_keys_sublist url rest).cons e.1
    · simp only []
      by_cases hr : r = []
      · rw [if_pos hr]
        exact (processedOf_keys_sublist url rest).cons e.1
      · rw [if_neg hr]
        rw [List.map_cons]
        exact (processedOf_keys_sublist url rest).cons₂ e.1

theorem mem_processedOf {raw : List (List Char × List Char)} {url : List Char}
    {p : List Char × List Char} (h : p ∈ processedOf raw url) :
    ∃ t, (p.1, t) ∈ raw ∧ process_all_layers t p.1 url = some p.2 ∧ p.2 ≠ [] := by
  rcases List.mem_filterMap.mp h with ⟨e, he, hf⟩
  rcases hp : process_all_layers e.2 e.1 url with _ | r
  · simp [hp] at hf
  · simp only [hp] at hf
    by_cases hr : r = []
    · rw [if_pos hr] at hf
      cases hf
    · rw [if_neg hr] at hf
      simp only [Option.some.injEq] at hf
      refine ⟨e.2, ?_, ?_, ?_⟩
      · rw [← hf]
        exact he
      · rw [← hf]
        exact hp
      · rw [← hf]
        exact hr

theorem pairSims_libs {ratioFn : List Char → List Char → ℚ} {x : SimEntry} :
    ∀ {l : List (List Char × List Char)}, x ∈ pairSims ratioFn l →
      x.lib1 ∈ l.map Prod.fst ∧ x.lib2 ∈ l.map Prod.fst
  | [], h => by cases h
  | (l1, t1) :: rest, h => by
    rw [pairSims] at h
    rcases List.mem_append.mp h with h1 | h1
    · rcases List.mem_map.mp h1 with ⟨e, he, hx⟩
      subst hx
      exact ⟨by simp, List.mem_cons_of_mem _ (List.mem_map.mpr ⟨e, he, rfl⟩)⟩
    · rcases pairSims_libs h1 with ⟨ha, hb⟩
      exact ⟨List.mem_cons_of_mem _ ha, List.mem_cons_of_mem _ hb⟩

theorem mem_libsOf_insert {tal : Tally} {n lib s x : List Char}
    (h : x ∈ libsOf (tallyInsert tal n lib) s) :
    (∃ s', x ∈ libsOf tal s') ∨ x = lib := by
  by_cases hs : s = n
  · subst hs
    rw [libsOf_insert_self] at h
    by_cases hm : lib ∈ libsOf tal s
    · rw [if_pos hm] at h
      exact Or.inl ⟨s, h⟩
    · rw [if_neg hm] at h
      rcases List.mem_append.mp h with h1 | h1
      · exact Or.inl ⟨s, h1⟩
      · exact Or.inr (List.mem_singleton.mp h1)
  · rw [libsOf_insert_other _ _ hs] at h
    exact Or.inl ⟨s, h⟩

theorem foldSent_libs {fl lib : List Char} {S : List (List Char)} (hlib : lib ∈ S) :
    ∀ (sents : List (List Char)) (st : Tally × List (List Char)),
      (∀ s x, x ∈ libsOf st.1 s → x ∈ S) →
      ∀ s x, x ∈ libsOf ((sents.foldl (tallySentence fl lib) st).1) s → x ∈ S
  | [], _, hP, s, x, hx => hP s x hx
  | y :: ys, st, hP, s, x, hx => by
    rw [List.foldl_cons] at hx
    refine foldSent_libs hlib ys _ ?_ s x hx
    intro s' x' hx'
    have hx'' : x' ∈ libsOf (tallyInsert st.1 (canonSentence y) lib) s' := by
      simpa only [tallySentence] using hx'
    rcases mem_libsOf_insert hx'' with ⟨s'', h1⟩ | h1
    · exact hP s'' x' h1
    · subst h1
      exact hlib

theorem tally_libs_subset :
    ∀ {l : List (List Char × List Char)} {s x : List Char},
      x ∈ libsOf (buildTally l).1 s → x ∈ l.map Prod.fst := by
  intro l s x
  cases l with
  | nil => intro hx; cases hx
  | cons e rest =>
    revert s x
    simp only [buildTally]
    refine @foldl_inv _ _
      (fun st : Tally × List (List Char) => ∀ s x, x ∈ libsOf st.1 s → x ∈ ((e :: rest).map Prod.fst))
      _ _ _ ?_ (fun s x hx1 => by cases hx1)
    intro st b hb hP s x hx1
    unfold tallyText at hx1
    by_cases hskip : isSkippedText b.2 = true
    · rw [if_pos hskip] at hx1
      exact hP s x hx1
    · rw [if_neg hskip] at hx1
      exact foldSent_libs (List.mem_map.mpr ⟨b, hb, rfl⟩) _ st hP s x hx1

theorem processedOf_length_le (url : List Char) :
    ∀ (raw : List (List Char × List Char)),
      (processedOf raw url).length ≤ raw.length := by
  intro raw
  have := (processedOf_keys_sublist url raw).length_le
  simpa using this

theorem processedOf_length_lt {url lib t : List Char}
    {raw : List (List Char × List Char)} (hmem : (lib, t) ∈ raw)
    (hnone : process_all_layers t lib url = none) :
    (processedOf raw url).length < raw.length := by
  induction raw with
  | nil => cases hmem
  | cons e rest ih =>
    rcases List.mem_cons.mp hmem with ha | ha
    · have hfe : process_all_layers e.2 e.1 url = none := by
        rw [← ha]
        exact hnone
      have hlen : processedOf (e :: rest) url = processedOf rest url := by
        unfold processedOf
        rw [List.filterMap_cons]
        simp [hfe]
      rw [hlen]
      have := processedOf_length_le url rest
      simp only [List.length_cons]
      omega
    · have hlen : (processedOf (e :: rest) url).length ≤ (processedOf rest url).length + 1 := by
        unfold processedOf
        rw [List.filterMap_cons]
        rcases process_all_layers e.2 e.1 url with _ | r
        · simp
        · by_cases hr : r = [] <;> simp [hr]
      have := ih ha
      simp only [List.length_cons]
      omega

/-! ### C7 and C8: pipeline-level claims -/

/-- C7: a raw text with the "ERROR:" prefix is discarded by
process_all_layers before any layer runs, and in the full pipeline the
source contributes to no pairwise-similarity entry and to no sentence
tally, while extractors_attempted counts it and extractors_successful
does not (so successful < attempted). -/
theorem error_marker_excluded (url lib t : List Char)
    (raw : List (List Char × List Char))
    (hmem : (lib, t) ∈ raw) (herr : t.take 6 = ("ERROR:".data))
    (hnd : (raw.map Prod.fst).Nodup) :
    process_all_layers t lib url = none ∧
    lib ∉ (processedOf raw url).map Prod.fst ∧
    (∀ (ratioFn : List Char → List Char → ℚ) (e : SimEntry),
        e ∈ pairSims ratioFn (processedOf raw url) →
        e.lib1 ≠ lib ∧ e.lib2 ≠ lib) ∧
    (∀ s, lib ∉ libsOf (buildTally (processedOf raw url)).1 s) ∧
    (∀ (hash : List Char → List Char) (ratioFn : List Char → List Char → ℚ)
        (md : Metadata) (res : FingerprintResult),
        fingerprint_core hash ratioFn md raw url = some res →
        res.extractors_attempted = raw.length ∧
        res.extractors_successful = (processedOf raw url).length ∧
        res.extractors_successful < res.extractors_attempted) := by
  have h1 : process_all_layers t lib url = none := by
    unfold process_all_layers
    rw [if_pos (Or.inr herr)]
  have h2 : lib ∉ (processedOf raw url).map Prod.fst := by
    intro hc
    rcases List.mem_map.mp hc with ⟨p, hp, hfst⟩
    rcases mem_processedOf hp with ⟨t', ht', hsome, -⟩
    rw [hfst] at ht' hsome
    have ht : t = t' := nodup_key_unique hnd hmem ht'
    rw [← ht, h1] at hsome
    cases hsome
  refine ⟨h1, h2, ?_, ?_, ?_⟩
  · intro ratioFn e he
    rcases pairSims_libs he with ⟨ha, hb⟩
    constructor
    · intro hcc
      rw [hcc] at ha
      exact h2 ha
    · intro hcc
      rw [hcc] at hb
      exact h2 hb
  · intro s hc
    exact h2 (tally_libs_subset hc)
  · intro hash ratioFn md res hres
    simp only [fingerprint_core] at hres
    rcases hx : extract (processedOf raw url)
        (if 3 ≤ (processedOf raw url).length then 3 else 2) with _ | pr
    · rw [hx] at hres
      cases hres
    · rcases pr with ⟨sm, vs⟩
      simp only [hx] at hres
      cases hres
      exact ⟨rfl, rfl, processedOf_length_lt hmem h1⟩

def c7Url : List Char := "https://example.com/a".data

def c7Raw : List (List Char × List Char) :=
  [("srcA".data, "This sentence is long enough to be kept by the filter.".data),
   ("srcB".data, "ERROR: boom".data)]

def c7Md : Metadata :=
  ⟨"https://example.com/a".data, some ("2026-01-01".data), "A Title".data⟩

def c7Hash : List Char → List Char := fun s => s

def c7Ratio : List Char → List Char → ℚ := fun _ _ => 0

/-- The result of the concrete C7 pipeline run: srcB (the "ERROR: boom"
source) is attempted but not successful. -/
def c7Res : FingerprintResult :=
  { article_id := "https://example.".data
    content_hash := []
    confidence := Confidence.low
    agreement_score := 0
    word_count := 0
    extractors_attempted := 2
    extractors_successful := 1
    pairwise_similarities := []
    voting_stats :=
      { total_unique_sentences := 1
        by_vote_count := [(4, []), (3, []), (2, []),
          (1, ["This sentence is long enough to be kept by the filter.".data])]
        sentences_kept := 0
        threshold := 2 }
    supermajority_text := [] }

/-- Witness for C7 at a concrete input: the mapping has a healthy source
srcA and a source srcB whose raw text is "ERROR: boom". -/
theorem error_marker_excluded_witness :
    ("srcB".data, "ERROR: boom".data) ∈ c7Raw ∧
    process_all_layers ("ERROR: boom".data) ("srcB".data) c7Url = none ∧
    "srcB".data ∉ (processedOf c7Raw c7Url).map Prod.fst ∧
    fingerprint_core c7Hash c7Ratio c7Md c7Raw c7Url = some c7Res ∧
    c7Res.extractors_attempted = c7Raw.length ∧
    c7Res.extractors_successful = (processedOf c7Raw c7Url).length ∧
    c7Res.extractors_successful < c7Res.extractors_attempted := by
  have h := error_marker_excluded c7Url ("srcB".data) ("ERROR: boom".data) c7Raw
    (by decide) (by decide) (by decide)
  have hrun : fingerprint_core c7Hash c7Ratio c7Md c7Raw c7Url = some c7Res := by
    decide
  refine ⟨by decide, h.1, h.2.1, hrun, ?_⟩
  exact h.2.2.2.2 c7Hash c7Ratio c7Md c7Res hrun

/-- C8: article_id depends only on the metadata fields canonical_url,
publish_date and title (fingerprinter.py lines 113-115): two runs whose
metadata agrees on those three fields produce the same article_id, whatever
the raw extraction texts, the url and the similarity scorer were. -/
theorem article_id_noninterference (hash : List Char → List Char)
    (ratioFn1 ratioFn2 : List Char → List Char → ℚ) (md1 md2 : Metadata)
    (url1 url2 : List Char) (raw1 raw2 : List (List Char × List Char))
    (r1 r2 : FingerprintResult)
    (hcu : md1.canonical_url = md2.canonical_url)
    (hpd : md1.publish_date = md2.publish_date)
    (ht : md1.title = md2.title)
    (h1 : fingerprint_core hash ratioFn1 md1 raw1 url1 = some r1)
    (h2 : fingerprint_core hash ratioFn2 md2 raw2 url2 = some r2) :
    r1.article_id = r2.article_id := by
  have e1 : r1.article_id = (hash (md1.canonical_url ++ '|' ::
      (renderOptStr md1.publish_date ++ '|' :: md1.title))).take 16 := by
    simp only [fingerprint_core] at h1
    rcases hx : extract (processedOf raw1 url1)
        (if 3 ≤ (processedOf raw1 url1).length then 3 else 2) with _ | pr
    · rw [hx] at h1
      cases h1
    · rcases pr with ⟨sm, vs⟩
      simp only [hx] at h1
      cases h1
      rfl
  have e2 : r2.article_id = (hash (md2.canonical_url ++ '|' ::
      (renderOptStr md2.publish_date ++ '|' :: md2.title))).take 16 := by
    simp only [fingerprint_core] at h2
    rcases hx : extract (processedOf raw2 url2)
        (if 3 ≤ (processedOf raw2 url2).length then 3 else 2) with _ | pr
    · rw [hx] at h2
      cases h2
    · rcases pr with ⟨sm, vs⟩
      simp only [hx] at h2
      cases h2
      rfl
  rw [e1, e2, hcu, hpd, ht]

def c8Hash : List Char → List Char := fun s => s

def c8Ratio : List Char → List Char → ℚ := fun _ _ => 0

def c8Md : Metadata := ⟨"https://example.com/a".data, none, "Title".data⟩

def c8Url : List Char := "https://example.com/a".data

def c8Raw1 : List (List Char × List Char) :=
  [("srcA".data, "This first run sentence is long enough to count fine.".data)]

def c8Raw2 : List (List Char × List Char) :=
  [("srcA".data, "A completely different second run text, also long enough.".data)]

/-- Result of the first concrete C8 run (raw text of run 1). -/
def c8R1 : FingerprintResult :=
  { article_id := "https://example.".data
    content_hash := []
    confidence := Confidence.low
    agreement_score := 0
    word_count := 0
    extractors_attempted := 1
    extractors_successful := 1
    pairwise_similarities := []
    voting_stats :=
      { total_unique_sentences := 1
        by_vote_count := [(4, []), (3, []), (2, []),
          (1, ["This first run sentence is long enough to count fine.".data])]
        sentences_kept := 0
        threshold := 2 }
    supermajority_text := [] }

/-- Result of the second concrete C8 run (different raw text). -/
def c8R2 : FingerprintResult :=
  { article_id := "https://example.".data
    content_hash := []
    confidence := Confidence.low
    agreement_score := 0
    word_count := 0
    extractors_attempted := 1
    extractors_successful := 1
    pairwise_similarities := []
    voting_stats :=
      { total_unique_sentences := 1
        by_vote_count := [(4, []), (3, []), (2, []),
          (1, ["A completely different second run text, also long enough.".data])]
        sentences_kept := 0
        threshold := 2 }
    supermajority_text := [] }

/-- Witness for C8 at a concrete input: two runs with the same metadata
but different raw extraction texts yield the same article_id. -/
theorem article_id_noninterference_witness :
    fingerprint_core c8Hash c8Ratio c8Md c8Raw1 c8Url = some c8R1 ∧
    fingerprint_core c8Hash c8Ratio c8Md c8Raw2 c8Url = some c8R2 ∧
    c8R1.article_id = c8R2.article_id := by
  have hr1 : fingerprint_core c8Hash c8Ratio c8Md c8Raw1 c8Url = some c8R1 := by
    decide
  have hr2 : fingerprint_core c8Hash c8Ratio c8Md c8Raw2 c8Url = some c8R2 := by
    decide
  exact ⟨hr1, hr2, article_id_noninterference c8Hash c8Ratio c8Ratio c8Md c8Md
    c8Url c8Url c8Raw1 c8Raw2 c8R1 c8R2 rfl rfl rfl hr1 hr2⟩
